import Mathlib

/-!
# Verification of the tiramiss-repository-ops Branch Integration Engine

Shallow embedding of the core of `src/apply-topics.ts`, `src/bundle-topics.ts`
and `src/utils/git.ts`:

* JavaScript strings that flow into `Buffer.byteLength` / `Buffer.slice` are
  modelled as their UTF-8 byte lists (`List Nat`); `Buffer.byteLength` is list
  length, `Buffer.from(s).slice(0, e)` is a byte-level slice with JavaScript
  end-index semantics (a negative end counts from the end of the buffer), and
  the subsequent lossy `.toString("utf8")` re-decode is `utf8Fix`, the WHATWG
  UTF-8 decoder composed with re-encoding: it copies well-formed sequences and
  replaces each ill-formed subpart — in particular an incomplete multi-byte
  sequence cut off at the end of the slice — with the three-byte replacement
  character U+FFFD.
* The git repository is modelled as a topologically numbered commit DAG
  (`parents` of a commit are smaller indices), each commit carrying a tree
  (`List Nat`, one value per path of a fixed path universe) and the metadata
  that `applySquash` extracts (`%an`, `%ae` and the first line of `%B` — the
  source destructures `split("\n")`, so only the first body line survives).
* `git merge` / `git cherry-pick` / `git merge --squash` perform a pathwise
  three-way merge against the relevant merge base; a pathwise disagreement is
  a conflict, which the scripts surface as an aborting error.
* The external process layer (`utils/proc.ts`) is not modelled; `git`/`gitOk`
  of `utils/git.ts` become total functions on the repository state, errors
  become `Except`-style results that keep the state.
-/

/-- UTF-8 encoding of a single character, as its byte list. -/
def utf8Char (c : Char) : List Nat :=
  let n := c.toNat
  if n < 0x80 then [n]
  else if n < 0x800 then [0xC0 + n / 64, 0x80 + n % 64]
  else if n < 0x10000 then [0xE0 + n / 4096, 0x80 + (n / 64) % 64, 0x80 + n % 64]
  else [0xF0 + n / 262144, 0x80 + (n / 4096) % 64, 0x80 + (n / 64) % 64, 0x80 + n % 64]

/-- UTF-8 byte list of a Lean string literal; used to embed the JavaScript
string constants of the source at the byte level. -/
def utf8Str (s : String) : List Nat :=
  (s.data.map utf8Char).flatten

/-- The byte pair of the blank-line separator `"\n\n"`. -/
def nn : List Nat := utf8Str "\n\n"

/-- The single newline byte `"\n"`. -/
def nl : List Nat := utf8Str "\n"

/-- Whitespace bytes removed by JavaScript `String.prototype.trim` (ASCII
range; the source's data is ASCII git metadata). -/
def isWsByte (b : Nat) : Bool :=
  b == 9 || b == 10 || b == 11 || b == 12 || b == 13 || b == 32

/-- Byte-level model of JavaScript `.trim()`. -/
def trimBytes (l : List Nat) : List Nat :=
  ((l.dropWhile isWsByte).reverse.dropWhile isWsByte).reverse

/-- Byte-level model of `Buffer.prototype.slice(0, e)`: JavaScript slice end
semantics, where a negative end index counts from the end.  The subsequent
lossy `toString("utf8")` re-decode is modelled separately by `utf8Fix`. -/
def jsSliceTo (l : List Nat) (e : Int) : List Nat :=
  l.take (if e < 0 then (e + l.length).toNat else e.toNat)

/-- The UTF-8 encoding of U+FFFD, the replacement character emitted by the
decoder for each ill-formed subsequence. -/
def rcBytes : List Nat := [239, 191, 189]

/-- The lower bound on the first continuation byte of a three-byte UTF-8
sequence led by `b` (WHATWG UTF-8 decoder). -/
def lowB3 (b : Nat) : Nat := if b = 224 then 160 else 128

/-- The upper bound on the first continuation byte of a three-byte UTF-8
sequence led by `b` (WHATWG UTF-8 decoder). -/
def highB3 (b : Nat) : Nat := if b = 237 then 159 else 191

/-- The lower bound on the first continuation byte of a four-byte UTF-8
sequence led by `b` (WHATWG UTF-8 decoder). -/
def lowB4 (b : Nat) : Nat := if b = 240 then 144 else 128

/-- The upper bound on the first continuation byte of a four-byte UTF-8
sequence led by `b` (WHATWG UTF-8 decoder). -/
def highB4 (b : Nat) : Nat := if b = 244 then 143 else 191

/-- Fuel-indexed byte-level model of `Buffer.prototype.toString("utf8")`
composed with re-encoding: the WHATWG UTF-8 decoder, which copies each
well-formed sequence and replaces each maximal ill-formed subpart — in
particular an incomplete multi-byte sequence at the end of the buffer — with
U+FFFD (`rcBytes`).  Each step consumes at least one byte, so fuel equal to
the list length drives it to completion. -/
def utf8FixF : Nat → List Nat → List Nat
  | _, [] => []
  | 0, _ :: _ => []
  | f + 1, b :: rest =>
    if b ≤ 127 then b :: utf8FixF f rest
    else if 194 ≤ b ∧ b ≤ 223 then
      match rest with
      | [] => rcBytes
      | c :: rest2 =>
        if 128 ≤ c ∧ c ≤ 191 then b :: c :: utf8FixF f rest2
        else rcBytes ++ utf8FixF f rest
    else if 224 ≤ b ∧ b ≤ 239 then
      match rest with
      | [] => rcBytes
      | c :: rest2 =>
        if lowB3 b ≤ c ∧ c ≤ highB3 b then
          match rest2 with
          | [] => rcBytes
          | d :: rest3 =>
            if 128 ≤ d ∧ d ≤ 191 then b :: c :: d :: utf8FixF f rest3
            else rcBytes ++ utf8FixF f (d :: rest3)
        else rcBytes ++ utf8FixF f rest
    else if 240 ≤ b ∧ b ≤ 244 then
      match rest with
      | [] => rcBytes
      | c :: rest2 =>
        if lowB4 b ≤ c ∧ c ≤ highB4 b then
          match rest2 with
          | [] => rcBytes
          | d :: rest3 =>
            if 128 ≤ d ∧ d ≤ 191 then
              match rest3 with
              | [] => rcBytes
              | e2 :: rest4 =>
                if 128 ≤ e2 ∧ e2 ≤ 191 then b :: c :: d :: e2 :: utf8FixF f rest4
                else rcBytes ++ utf8FixF f (e2 :: rest4)
            else rcBytes ++ utf8FixF f (d :: rest3)
        else rcBytes ++ utf8FixF f rest
    else rcBytes ++ utf8FixF f rest

/-- Byte-level model of `buf.toString("utf8")` re-encoded: the identity on
well-formed UTF-8, with each ill-formed subpart replaced by `rcBytes`. -/
def utf8Fix (l : List Nat) : List Nat := utf8FixF l.length l

/-- The grammar of well-formed UTF-8 byte sequences (the bounds match the
WHATWG decoder branch for branch).  `Buffer.from(s, "utf8")` of a JavaScript
string always yields such a sequence. -/
inductive Utf8Valid : List Nat → Prop where
  | nil : Utf8Valid []
  | one : ∀ (b : Nat) (rest : List Nat), b ≤ 127 → Utf8Valid rest →
      Utf8Valid (b :: rest)
  | two : ∀ (b c : Nat) (rest : List Nat), 194 ≤ b → b ≤ 223 →
      128 ≤ c → c ≤ 191 → Utf8Valid rest → Utf8Valid (b :: c :: rest)
  | three : ∀ (b c d : Nat) (rest : List Nat), 224 ≤ b → b ≤ 239 →
      lowB3 b ≤ c → c ≤ highB3 b → 128 ≤ d → d ≤ 191 → Utf8Valid rest →
      Utf8Valid (b :: c :: d :: rest)
  | four : ∀ (b c d e2 : Nat) (rest : List Nat), 240 ≤ b → b ≤ 244 →
      lowB4 b ≤ c → c ≤ highB4 b → 128 ≤ d → d ≤ 191 → 128 ≤ e2 → e2 ≤ 191 →
      Utf8Valid rest → Utf8Valid (b :: c :: d :: e2 :: rest)

/-- Insertion-order deduplication, the semantics of `[...new Set(xs)]` in the
source: keeps the first occurrence of each element.  (Structurally recursive:
deduplicate the tail, then drop later occurrences of the head.) -/
def jsSetDedup {α : Type} [DecidableEq α] : List α → List α
  | [] => []
  | a :: as => a :: (jsSetDedup as).filter (fun x => x ≠ a)

/-- Position of the first occurrence of `x` in `l` (with the equality test
fixed to the `DecidableEq`-derived one, as in the lemmas above). -/
def idxIn {α : Type} [DecidableEq α] (l : List α) (x : α) : Nat :=
  List.indexOf x l

/-- A source commit as `applySquash` extracts it with
`git show -s --format=%an%n%ae%n%B` followed by `split("\n")` destructuring:
author name, author e-mail, and the first line of the message body (only the
first line survives the destructuring).  All fields are UTF-8 byte lists. -/
structure CommitRecord where
  authorName : List Nat
  authorEmail : List Nat
  body : List Nat
deriving DecidableEq, Repr

/-- The `"Name <email>"` identity string built at line 162 of
`apply-topics.ts`. -/
def identityOf (c : CommitRecord) : List Nat :=
  c.authorName ++ utf8Str " <" ++ c.authorEmail ++ utf8Str ">"

/-- The reserved bot identity excluded from co-authorship. -/
def botIdentity : List Nat :=
  utf8Str "Tiramiss <tiramiss@users.noreply.github.com>"

/-- The author identities of the source commits with the committer's own
identity and the reserved bot identity filtered out (lines 159–168). -/
def identList (cs : List CommitRecord) (com bot : List Nat) : List (List Nat) :=
  (cs.map identityOf).filter (fun a => !(a == com) && !(a == bot))

/-- The `"Co-authored-by: "` marker prepended to each co-author line. -/
def coAuthorMark : List Nat := utf8Str "Co-authored-by: "

/-- The deduplicated co-author lines (lines 159–169): `[...new Set(...)]`
keeps first occurrences, then each identity is prefixed with the marker. -/
def coAuthorLines (cs : List CommitRecord) (com bot : List Nat) : List (List Nat) :=
  (jsSetDedup (identList cs com bot)).map (fun a => coAuthorMark ++ a)

/-- The visible separator between aggregated commit bodies (line 173). -/
def bodySep : List Nat := utf8Str "\n\n---\n\n"

/-- The aggregated body: bodies joined with the separator, then trimmed
(lines 171–174). -/
def bodyOf (cs : List CommitRecord) : List Nat :=
  trimBytes (List.intercalate bodySep (cs.map (fun c => c.body)))

/-- The squash title, line 176: the fixed marker followed by the topic name
exactly as resolved (no path-segment stripping happens in the source). -/
def squashTitle (topic : List Nat) : List Nat :=
  utf8Str "squash: " ++ topic

/-- The squash footer, line 177: `Squashed from '<topic>'`. -/
def squashFooter (topic : List Nat) : List Nat :=
  utf8Str "Squashed from \x27" ++ topic ++ utf8Str "\x27"

/-- The hard byte ceiling `GIT_MAX_COMMIT_MESSAGE_LENGTH` (line 184). -/
def GIT_MAX : Nat := 65536

/-- Assembly of lines 179–182: title, body and footer separated by blank
lines, with the co-author block appended only when non-empty. -/
def assembled (title body footer : List Nat) (co : List (List Nat)) : List Nat :=
  title ++ nn ++ body ++ nn ++ footer ++
    (if co = [] then [] else nn ++ List.intercalate nl co)

/-- The `fixedParts` string of line 187: note the four newlines where the
body sat and the unconditional `"\n\n" + coAuthorsText` tail. -/
def fixedParts (title footer coText : List Nat) : List Nat :=
  title ++ nn ++ nn ++ footer ++ nn ++ coText

/-- The complete squash commit message of lines 154–196: assemble, and if
the result exceeds the ceiling, slice the body byte-wise against the
available budget (`Buffer.from(body, "utf8").slice(0, n)`, line 192–193),
re-decode the slice lossily (`.toString("utf8")`, line 194 — an incomplete
trailing multi-byte sequence becomes the replacement character), and
reassemble with an unconditional co-author tail. -/
def squashMessage (cs : List CommitRecord) (com bot topic : List Nat) : List Nat :=
  let co := coAuthorLines cs com bot
  let body := bodyOf cs
  let title := squashTitle topic
  let footer := squashFooter topic
  let message := assembled title body footer co
  if GIT_MAX < message.length then
    let coText := List.intercalate nl co
    let avail : Int := (GIT_MAX : Int) - ((fixedParts title footer coText).length : Int)
    let trunc := utf8Fix (jsSliceTo body avail)
    title ++ nn ++ trunc ++ nn ++ footer ++ nn ++ coText
  else message

/-- Modelled from the spec (§4.3 step 1): the topic label is "the topic name
stripped to its final path segment", i.e. the bytes after the last `/`. -/
def lastSegmentBytes (topic : List Nat) : List Nat :=
  (topic.reverse.takeWhile (fun b => b ≠ 47)).reverse

/-- Modelled from the spec (§4.3 step 1): title = fixed marker + topic label.
This is the claim-side title; compare with `squashTitle` from the source. -/
def specSquashTitle (topic : List Nat) : List Nat :=
  utf8Str "squash: " ++ lastSegmentBytes topic

/-- Modelled from the spec (§4.3 steps 5–6): the claim-side truncated
message — title, footer and co-author block held fixed, the body replaced by
its largest fitting byte prefix, reassembled with the step-5 layout (which
omits the co-author separator when there are no co-authors). -/
def specTruncatedMessage (cs : List CommitRecord) (com bot topic : List Nat) : List Nat :=
  assembled (squashTitle topic)
    ((bodyOf cs).take (GIT_MAX -
      (assembled (squashTitle topic) [] (squashFooter topic) (coAuthorLines cs com bot)).length))
    (squashFooter topic) (coAuthorLines cs com bot)

/-- The fixed allow-list of `bundle-topics.ts` lines 44–53: a path is
auto-resolvable when it equals or is nested under `.tiramiss` or
`.github/workflows`.  Paths are modelled as character lists. -/
def shouldKeepOursOnMergeConflict (path : List Char) : Bool :=
  path == ".tiramiss".data ||
  List.isPrefixOf ".tiramiss/".data path ||
  path == ".github/workflows".data ||
  List.isPrefixOf ".github/workflows/".data path

/-- The slice of repository state the Conflict Auto-Resolver touches: the
number of commits, whether `MERGE_HEAD` exists (a merge is in progress), and
the unresolved paths of the index, each tagged with whether the index holds
an `ours` (stage 2) entry for it — absent in a delete/modify conflict where
the current side deleted the file. -/
structure ConflictState where
  commitCount : Nat
  mergeHead : Bool
  unmerged : List (List Char × Bool)
deriving DecidableEq, Repr

/-- `tryAutoResolveMergeConflictKeepingOurs` of `bundle-topics.ts` lines
68–103: returns the new state and, when no git command throws, the
`resolved` flag and `remaining` list.  `git checkout --ours -- <paths>`
(line 91) targets the allow-listed unresolved paths and runs through the
throwing `git` wrapper: it exits nonzero — result `none`, the error
propagating to the caller with nothing committed and the merge still in
progress — when any targeted path has no `ours` stage.  Otherwise checkout
plus `git add` (line 92) resolve exactly the targeted paths, the re-listed
unresolved paths are the ones outside the allow-list, and
`git commit --no-edit` (line 101) finalizes the merge with one commit. -/
def tryAutoResolveMergeConflictKeepingOurs (s : ConflictState) :
    ConflictState × Option (Bool × List (List Char)) :=
  if !s.mergeHead then (s, some (false, []))
  else if s.unmerged = [] then (s, some (false, []))
  else if s.unmerged.filter (fun pb => shouldKeepOursOnMergeConflict pb.1) = [] then
    (s, some (false, s.unmerged.map Prod.fst))
  else if (s.unmerged.filter (fun pb => shouldKeepOursOnMergeConflict pb.1)).any
      (fun pb => !pb.2) then
    (s, none)
  else if (s.unmerged.filter (fun pb => !shouldKeepOursOnMergeConflict pb.1)).length > 0 then
    ({ s with unmerged := s.unmerged.filter (fun pb => !shouldKeepOursOnMergeConflict pb.1) },
      some (false,
        (s.unmerged.filter (fun pb => !shouldKeepOursOnMergeConflict pb.1)).map Prod.fst))
  else
    (⟨s.commitCount + 1, false, []⟩, some (true, []))

/-- One commit of the history DAG: parent ids (topologically smaller), the
tree (one content value per path of a fixed path universe), and the metadata
`applySquash` extracts from it. -/
structure Commit where
  parents : List Nat
  tree : List Nat
  record : CommitRecord
deriving DecidableEq, Repr

/-- The repository state the scripts read and mutate: the commit DAG
(indexed by position; a topologically numbered history has all parents
smaller than the commit), local branches, remote-tracking refs
(`origin/...`, `upstream/...`), the remote's branches (what `git push`
updates, keyed by plain branch name), the checked-out branch, the commit at
`HEAD`, and whether the working tree is clean. -/
structure Repo where
  commits : List Commit
  branches : List (String × Nat)
  remoteTracking : List (String × Nat)
  remote : List (String × Nat)
  headBranch : Option String
  headId : Nat
  clean : Bool
deriving DecidableEq, Repr

/-- Parents of commit `i` (a commit outside the list has none). -/
def parentsOf (g : List Commit) (i : Nat) : List Nat :=
  match g[i]? with
  | some c => c.parents
  | none => []

/-- Tree of commit `i`. -/
def treeOf (g : List Commit) (i : Nat) : List Nat :=
  match g[i]? with
  | some c => c.tree
  | none => []

/-- Metadata record of commit `i`. -/
def recordOf (g : List Commit) (i : Nat) : CommitRecord :=
  match g[i]? with
  | some c => c.record
  | none => ⟨[], [], []⟩

/-- Fuel-driven ancestry test (`git merge-base --is-ancestor a b`): `a` is
reachable from `b` through parents.  Only parents strictly smaller than the
child are followed, which both matches a topologically numbered history and
bounds the recursion; fuel `b` suffices. -/
def ancFuel (g : List Commit) (a : Nat) : Nat → Nat → Bool
  | 0, b => a == b
  | f + 1, b => a == b || (parentsOf g b).any (fun p => decide (p < b) && ancFuel g a f p)

/-- Ancestry test: `isAnc g a b` iff commit `a` is an ancestor of (or equal
to) commit `b` in the DAG `g`. -/
def isAnc (g : List Commit) (a b : Nat) : Bool :=
  ancFuel g a b b

/-- The engine's error outcomes (§7 of the spec, the thrown errors of the
scripts). -/
inductive EngineErr where
  | dirtyWorkTree
  | refNotFound (topic : String)
  | mergeBaseFail
  | mergeConflict
  | pickConflict
  | squashConflict
  | commitFail
deriving DecidableEq, Repr

/-- A result that keeps carrying the error, with decidable equality. -/
inductive ERes (α : Type) where
  | ok (a : α)
  | err (e : EngineErr)
deriving DecidableEq, Repr

/-- The three strategies of `apply-topics.ts`. -/
inductive Mode where
  | merge
  | pick
  | squash
deriving DecidableEq, Repr

/-- Per-topic outcome of a strategy application (§4.4 of the spec maps the
log-only distinction of the source onto `Skipped`/`Applied`). -/
inductive Outcome where
  | skipped
  | applied
deriving DecidableEq, Repr

/-- Run configuration: the yargs options of `apply-topics.ts` (with the
topics-file candidate list already computed, line 59–61) plus the committer
identity from `git config user.name` / `user.email`. -/
structure Cfg where
  baseRef : String
  integrateBranch : String
  push : Bool
  mode : Mode
  topicsCandidates : List String
  userName : List Nat
  userEmail : List Nat
deriving DecidableEq, Repr

/-- Association-list update: replace the first binding of `k`, or append one.
Models updating a branch/remote ref. -/
def setA (l : List (String × Nat)) (k : String) (v : Nat) : List (String × Nat) :=
  match l with
  | [] => [(k, v)]
  | (k', v') :: rest => if k' = k then (k, v) :: rest else (k', v') :: setA rest k v

/-- `git rev-parse --verify <n>^{commit}`: resolve a name against local
branches, then remote-tracking refs.  (Raw object ids and tags are outside
the model.) -/
def resolveName (s : Repo) (n : String) : Option Nat :=
  (List.lookup n s.branches).or (List.lookup n s.remoteTracking)

/-- `resolveTopicRef` of `apply-topics.ts` lines 76–86 (identical to
`resolveRef` of `bundle-topics.ts` lines 187–197): the name itself, then
under `origin/`, then under `upstream/`; error when none resolves. -/
def resolveTopicRef (s : Repo) (topic : String) : ERes String :=
  if (resolveName s topic).isSome then .ok topic
  else if (resolveName s ("origin/" ++ topic)).isSome then .ok ("origin/" ++ topic)
  else if (resolveName s ("upstream/" ++ topic)).isSome then .ok ("upstream/" ++ topic)
  else .err (.refNotFound topic)

/-- `git merge-base a b`: a maximal common ancestor — in a topologically
numbered DAG the common ancestor with the largest index is maximal. -/
def mergeBase (g : List Commit) (a b : Nat) : Option Nat :=
  (((List.range g.length).filter (fun c => isAnc g c a && isAnc g c b)).max?)

/-- `listCommits` of `utils/git.ts` lines 37–43
(`git rev-list --reverse --ancestry-path base..tip`): the commits that are
descendants of `base` and ancestors of `tip`, excluding `base` itself, in
ascending (oldest-first) topological order. -/
def listCommits (g : List Commit) (base tip : Nat) : List Nat :=
  (List.range g.length).filter
    (fun c => !(c == base) && isAnc g base c && isAnc g c tip)

/-- Pathwise three-way merge of one path value (`base`, `ours`, `theirs`);
`none` is a conflict. -/
def mergeVal (b o t : Nat) : Option Nat :=
  if o = b then some t
  else if t = b then some o
  else if o = t then some o
  else none

/-- Three-way merge of whole trees; `none` when any path conflicts (trees of
different shapes also conflict). -/
def threeWay : List Nat → List Nat → List Nat → Option (List Nat)
  | [], [], [] => some []
  | b :: bs, o :: os, t :: ts =>
    match mergeVal b o t, threeWay bs os ts with
    | some v, some vs => some (v :: vs)
    | _, _ => none
  | _, _, _ => none

/-- Create a commit on top of the current head: append it to the DAG, move
`HEAD` and the checked-out branch to it. -/
def addCommit (s : Repo) (ps : List Nat) (tree : List Nat) (rec : CommitRecord) : Repo :=
  { s with
    commits := s.commits ++ [⟨ps, tree, rec⟩],
    headId := s.commits.length,
    branches :=
      match s.headBranch with
      | some b => setA s.branches b s.commits.length
      | none => s.branches }

/-- `applyMerge` of `apply-topics.ts` lines 88–94: skip when the topic is
already an ancestor of `HEAD`, else `git merge --no-ff` — a three-way merge
against the merge base producing one merge commit, failing on conflict (and
on unrelated histories). -/
def applyMerge (s : Repo) (name : String) : ERes Outcome × Repo :=
  match resolveName s name with
  | none => (.err .mergeConflict, s)
  | some t =>
    if isAnc s.commits t s.headId then (.ok .skipped, s)
    else
      match mergeBase s.commits s.headId t with
      | none => (.err .mergeConflict, s)
      | some b =>
        match threeWay (treeOf s.commits b) (treeOf s.commits s.headId) (treeOf s.commits t) with
        | none => (.err .mergeConflict, { s with clean := false })
        | some m => (.ok .applied, addCommit s [s.headId, t] m ⟨[], [], []⟩)

/-- `git cherry-pick -x c`: three-way merge of `c` against its (single)
parent onto `HEAD`; a conflict or an empty result stops with an error (git
refuses to create the empty commit without `--allow-empty`); on success one
commit carrying `c`'s metadata is created. -/
def cherryPickOne (s : Repo) (c : Nat) : ERes Unit × Repo :=
  match parentsOf s.commits c with
  | [p] =>
    match threeWay (treeOf s.commits p) (treeOf s.commits s.headId) (treeOf s.commits c) with
    | none => (.err .pickConflict, { s with clean := false })
    | some m =>
      if m = treeOf s.commits s.headId then (.err .pickConflict, s)
      else (.ok (), addCommit s [s.headId] m (recordOf s.commits c))
  | _ => (.err .pickConflict, { s with clean := false })

/-- The cherry-pick loop of `applyPick` lines 110–116, also returning the
list of source commits applied, oldest first. -/
def pickLoop (s : Repo) : List Nat → ERes Unit × Repo × List Nat
  | [] => (.ok (), s, [])
  | c :: cs =>
    match cherryPickOne s c with
    | (.err e, s') => (.err e, s', [])
    | (.ok _, s') =>
      match pickLoop s' cs with
      | (r, s'', picked) => (r, s'', c :: picked)

/-- `applyPick` of `apply-topics.ts` lines 96–117. -/
def applyPick (s : Repo) (name baseRef : String) : ERes Outcome × Repo × List Nat :=
  match resolveName s name with
  | none => (.err .mergeBaseFail, s, [])
  | some t =>
    if isAnc s.commits t s.headId then (.ok .skipped, s, [])
    else
      match resolveName s baseRef with
      | none => (.err .mergeBaseFail, s, [])
      | some br =>
        match mergeBase s.commits t br with
        | none => (.err .mergeBaseFail, s, [])
        | some base =>
          match pickLoop s (listCommits s.commits base t) with
          | (.ok _, s', picked) => (.ok .applied, s', picked)
          | (.err e, s', picked) => (.err e, s', picked)

/-- `applySquash` of `apply-topics.ts` lines 119–199: skip when the diff
between the head/topic merge base and the topic tip is empty; else stage the
squash merge (three-way against the merge base), synthesize the message from
the commit range, and commit once — `git commit -m` fails when nothing was
staged. -/
def applySquash (cfg : Cfg) (s : Repo) (name : String) : ERes Outcome × Repo :=
  match resolveName s name with
  | none => (.err .mergeBaseFail, s)
  | some t =>
    match mergeBase s.commits s.headId t with
    | none => (.err .mergeBaseFail, s)
    | some common =>
      if treeOf s.commits common = treeOf s.commits t then (.ok .skipped, s)
      else
        match threeWay (treeOf s.commits common) (treeOf s.commits s.headId) (treeOf s.commits t) with
        | none => (.err .squashConflict, { s with clean := false })
        | some m =>
          let records := (listCommits s.commits common t).map (recordOf s.commits)
          let committer := cfg.userName ++ utf8Str " <" ++ cfg.userEmail ++ utf8Str ">"
          let message := squashMessage records committer botIdentity (utf8Str name)
          if m = treeOf s.commits s.headId then (.err .commitFail, s)
          else (.ok .applied, addCommit s [s.headId] m ⟨cfg.userName, cfg.userEmail, message⟩)

/-- One iteration of the topic loop of `main` (lines 223–233): resolve, then
apply with the configured strategy. -/
def applyTopicStep (cfg : Cfg) (s : Repo) (raw : String) : ERes Outcome × Repo :=
  match resolveTopicRef s raw with
  | .err e => (.err e, s)
  | .ok name =>
    match cfg.mode with
    | .merge => applyMerge s name
    | .pick =>
      match applyPick s name cfg.baseRef with
      | (r, s', _) => (r, s')
    | .squash => applySquash cfg s name

/-- The topic loop: stop at the first failing topic, keeping the state
reached so far. -/
def applyTopics (cfg : Cfg) : List String → Repo → ERes Unit × Repo
  | [], s => (.ok (), s)
  | raw :: rest, s =>
    match applyTopicStep cfg s raw with
    | (.ok _, s') => applyTopics cfg rest s'
    | (.err e, s') => (.err e, s')

/-- Split a character list at newlines (the `split(/\r?\n/)` of line 67; the
`\r` of a CRLF ending is removed by the subsequent trim). -/
def splitLines : List Char → List (List Char)
  | [] => [[]]
  | c :: cs =>
    if c = '\n' then [] :: splitLines cs
    else
      match splitLines cs with
      | [] => [[c]]
      | l :: ls => (c :: l) :: ls

/-- Whitespace for the line trim of line 68. -/
def isWsChar (c : Char) : Bool :=
  c = ' ' || c = '\t' || c = '\n' || c = '\r' || c = '\x0b' || c = '\x0c'

/-- Trim of one line. -/
def trimChars (l : List Char) : List Char :=
  ((l.dropWhile isWsChar).reverse.dropWhile isWsChar).reverse

/-- Parse a topics file (lines 66–69): split into lines, trim each, keep
non-empty lines not starting with `#`. -/
def parseTopics (content : String) : List String :=
  (((splitLines content.data).map trimChars).filter
    (fun l => !(l == []) && !(l.headD ' ' == '#'))).map (fun l => ⟨l⟩)

/-- `readTopics` of lines 63–74: first existing candidate wins; `none` when
no candidate path exists. -/
def readTopics (cands : List String) (files : List (String × String)) :
    Option (String × List String) :=
  match cands with
  | [] => none
  | p :: rest =>
    match List.lookup p files with
    | some content => some (p, parseTopics content)
    | none => readTopics rest files

/-- The working state of one engine run: the repository plus the file system
the topics file is searched in (never written by `apply-topics.ts`). -/
structure Env where
  repo : Repo
  files : List (String × String)
deriving DecidableEq, Repr

/-- Lines 211–217: record the current head, then create or reset the
integration branch at it and switch to it.  Both source paths
(`switch` + `reset --hard` vs `switch -C`) leave the branch at
`workingHead` with `HEAD` attached to it. -/
def resetIntegrate (s : Repo) (ib : String) (workingHead : Nat) : Repo :=
  { s with
    branches := setA s.branches ib workingHead,
    headBranch := some ib,
    headId := workingHead }

/-- Lines 235–241: when pushing is enabled, `push -u` (create) or
`push --force` — either way the remote branch and the remote-tracking ref
end up at the current tip. -/
def pushPhase (cfg : Cfg) (s : Repo) : Repo :=
  if cfg.push then
    { s with
      remote := setA s.remote cfg.integrateBranch s.headId,
      remoteTracking :=
        setA s.remoteTracking ("origin/" ++ cfg.integrateBranch) s.headId }
  else s

/-- The `main` of `apply-topics.ts` (lines 201–247): precondition check,
topics lookup (missing file returns success immediately), integration-branch
reset, the topic loop, and the optional push. -/
def runEngine (cfg : Cfg) (e : Env) : ERes Unit × Env :=
  if e.repo.clean = false then (.err .dirtyWorkTree, e)
  else
    match readTopics cfg.topicsCandidates e.files with
    | none => (.ok (), e)
    | some (_, topics) =>
      let s1 := resetIntegrate e.repo cfg.integrateBranch e.repo.headId
      match applyTopics cfg topics s1 with
      | (.ok _, s2) => (.ok (), { e with repo := pushPhase cfg s2 })
      | (.err err, s2) => (.err err, { e with repo := s2 })

/-- Repository for the C8 witness: commit 1 has the same tree as commit 0
but is not an ancestor of head (= commit 0). -/
def skipWitnessRepo : Repo :=
  ⟨[⟨[], [0], ⟨[], [], []⟩⟩, ⟨[0], [0], ⟨[], [], []⟩⟩],
   [("m", 0), ("t", 1)], [], [], some "m", 0, true⟩

/-- Configuration for the C8 witness. -/
def skipWitnessCfg : Cfg :=
  ⟨"m", "tiramiss", false, .squash, ["topics.txt"], [], []⟩

/-- Repository for the C7 witness: one topic commit on top of the base. -/
def pickWitnessRepo : Repo :=
  ⟨[⟨[], [0], ⟨[], [], []⟩⟩, ⟨[0], [1], ⟨utf8Str "n", utf8Str "e", utf8Str "m"⟩⟩],
   [("b", 0), ("t", 1)], [], [], some "b", 0, true⟩

/-- Repository for the C1 counterexample: commit 1 (head, the working
branch) reverted path 0 of commit 0; topic `t1` (commit 2) redoes it; topic
`t2` (commit 3) branches from commit 0, keeping path 0 at its old value and
changing path 1 — so after a full squash (or pick) run, a second run still
sees a non-empty diff for `t1` and re-applies it. -/
def cexRepo : Repo :=
  ⟨[⟨[], [3, 0], ⟨[], [], []⟩⟩,
    ⟨[0], [2, 0], ⟨[], [], []⟩⟩,
    ⟨[1], [3, 0], ⟨utf8Str "a", utf8Str "a@a", utf8Str "m1"⟩⟩,
    ⟨[0], [2, 7], ⟨utf8Str "b", utf8Str "b@b", utf8Str "m2"⟩⟩],
   [("work", 1), ("t1", 2), ("t2", 3)], [], [], some "work", 1, true⟩

/-- Environment for the C1 counterexample. -/
def cexEnv : Env := ⟨cexRepo, [("topics.txt", "t1\nt2\n")]⟩

/-- Squash configuration for the C1 counterexample. -/
def cexCfgSquash : Cfg :=
  ⟨"work", "tiramiss", true, .squash, ["topics.txt"], utf8Str "u", utf8Str "u@u"⟩

/-- Pick configuration for the C1 counterexample. -/
def cexCfgPick : Cfg :=
  ⟨"work", "tiramiss", true, .pick, ["topics.txt"], utf8Str "u", utf8Str "u@u"⟩

/-- Invariant maintained across a merge-mode run after the integration-branch
reset: relative to the initial branch table `b0`, remote-tracking table
`rt0` and remote table `rm0`, only the integration branch `ib` has moved —
and it always sits at the current head, with `HEAD` attached to it and a
clean tree. -/
structure MergeRunInv (b0 rt0 rm0 : List (String × Nat)) (ib : String)
    (s : Repo) : Prop where
  branches_eq : s.branches = setA b0 ib s.headId
  rt_eq : s.remoteTracking = rt0
  remote_eq : s.remote = rm0
  headBranch_eq : s.headBranch = some ib
  clean_eq : s.clean = true

/-- A name is "good" for the final state when it is the integration branch
itself, or resolves in the initial tables to a commit that is an ancestor of
the final head. -/
def GoodName (b0 rt0 : List (String × Nat)) (ib : String) (gF : List Commit)
    (headF : Nat) (n : String) : Prop :=
  n = ib ∨ ∃ t, (List.lookup n b0).or (List.lookup n rt0) = some t ∧
    isAnc gF t headF = true

/-- A name that resolved to nothing during the run: not the integration
branch and absent from the initial tables. -/
def DeadName (b0 rt0 : List (String × Nat)) (ib : String) (n : String) : Prop :=
  n ≠ ib ∧ (List.lookup n b0).or (List.lookup n rt0) = none

/-- A topic raw name is settled when the candidate it resolved through is
good and every earlier candidate is dead. -/
def SettledTopic (b0 rt0 : List (String × Nat)) (ib : String) (gF : List Commit)
    (headF : Nat) (raw : String) : Prop :=
  GoodName b0 rt0 ib gF headF raw ∨
  (DeadName b0 rt0 ib raw ∧ GoodName b0 rt0 ib gF headF ("origin/" ++ raw)) ∨
  (DeadName b0 rt0 ib raw ∧ DeadName b0 rt0 ib ("origin/" ++ raw) ∧
    GoodName b0 rt0 ib gF headF ("upstream/" ++ raw))

/-- Merge configuration for the C1 witness run. -/
def cexCfgMerge : Cfg :=
  ⟨"work", "tiramiss", true, .merge, ["topics.txt"], utf8Str "u", utf8Str "u@u"⟩

/-- A merge in progress whose only unresolved path is allow-listed and has an
`ours` stage: the auto-resolver finalizes it. -/
def c5WitnessState : ConflictState :=
  ⟨5, true, [(".tiramiss/topics.txt".data, true)]⟩

/-- A merge in progress whose only unresolved path is allow-listed but has no
`ours` stage (delete/modify conflict: the current side deleted the file, the
merged topic modified it). -/
def c5ThrowState : ConflictState :=
  ⟨5, true, [(".tiramiss/topics.txt".data, false)]⟩

theorem mem_jsSetDedup {α : Type} [DecidableEq α] (l : List α) (x : α) :
    x ∈ jsSetDedup l ↔ x ∈ l := by
  induction l with
  | nil => simp [jsSetDedup]
  | cons a as ih =>
    simp only [jsSetDedup, List.mem_cons, List.mem_filter, ih,
      decide_eq_true_eq]
    constructor
    · rintro (rfl | ⟨h, _⟩)
      · exact Or.inl rfl
      · exact Or.inr h
    · rintro (rfl | h)
      · exact Or.inl rfl
      · by_cases hx : x = a
        · exact Or.inl hx
        · exact Or.inr ⟨h, hx⟩

theorem nodup_jsSetDedup {α : Type} [DecidableEq α] (l : List α) :
    (jsSetDedup l).Nodup := by
  induction l with
  | nil => simp [jsSetDedup]
  | cons a as ih =>
    refine List.nodup_cons.2 ⟨?_, ih.filter _⟩
    intro hmem
    have hne := (List.mem_filter.1 hmem).2
    simp at hne

/-- The deduplicated list keeps elements in order of first appearance in the
original list. -/
theorem pairwise_indexOf_jsSetDedup {α : Type} [DecidableEq α] (l : List α) :
    (jsSetDedup l).Pairwise (fun x y => l.indexOf x < l.indexOf y) := by
  induction l with
  | nil => simp [jsSetDedup]
  | cons a as ih =>
    refine List.pairwise_cons.2 ⟨?_, ?_⟩
    · intro y hy
      have hya : y ≠ a := by simpa using (List.mem_filter.1 hy).2
      have hyas : y ∈ as := (mem_jsSetDedup _ _).1 (List.mem_of_mem_filter hy)
      rw [List.indexOf_cons_self, List.indexOf_cons_ne _ (Ne.symm hya)]
      omega
    · refine ((ih.filter _).imp_of_mem ?_)
      intro x y hx hy hlt
      have hxa : x ≠ a := by simpa using (List.mem_filter.1 hx).2
      have hya : y ≠ a := by simpa using (List.mem_filter.1 hy).2
      rw [List.indexOf_cons_ne _ (Ne.symm hxa), List.indexOf_cons_ne _ (Ne.symm hya)]
      omega

/-- Unfolding of `squashMessage` in the non-overflow case. -/
theorem squashMessage_of_le (cs : List CommitRecord) (com bot topic : List Nat)
    (h : (assembled (squashTitle topic) (bodyOf cs) (squashFooter topic)
      (coAuthorLines cs com bot)).length ≤ GIT_MAX) :
    squashMessage cs com bot topic =
      assembled (squashTitle topic) (bodyOf cs) (squashFooter topic)
        (coAuthorLines cs com bot) := by
  rw [squashMessage]
  simp only [if_neg (by omega : ¬ GIT_MAX < (assembled (squashTitle topic) (bodyOf cs)
    (squashFooter topic) (coAuthorLines cs com bot)).length)]

/-- Unfolding of `squashMessage` in the overflow case. -/
theorem squashMessage_of_gt (cs : List CommitRecord) (com bot topic : List Nat)
    (h : GIT_MAX < (assembled (squashTitle topic) (bodyOf cs) (squashFooter topic)
      (coAuthorLines cs com bot)).length) :
    squashMessage cs com bot topic =
      squashTitle topic ++ nn ++
        utf8Fix (jsSliceTo (bodyOf cs) ((GIT_MAX : Int) -
          ((fixedParts (squashTitle topic) (squashFooter topic)
            (List.intercalate nl (coAuthorLines cs com bot))).length : Int))) ++
        nn ++ squashFooter topic ++ nn ++
        List.intercalate nl (coAuthorLines cs com bot) := by
  rw [squashMessage]
  simp only [if_pos h]

/-- C2 (counterexample): for topic `feature/x` the source's title carries the
full topic name, not the final path segment the claim demands. -/
theorem squashTitle_ne_specSquashTitle_featureX :
    squashTitle (utf8Str "feature/x") ≠ specSquashTitle (utf8Str "feature/x") := by
  decide

/-- C2 (amended): the title of the synthesized squash message is the fixed
marker followed by the topic name exactly as resolved — no stripping to the
final path segment happens — and the full message always begins with it. -/
theorem squashTitle_is_marker_and_full_topic
    (cs : List CommitRecord) (com bot topic : List Nat) :
    squashTitle topic = utf8Str "squash: " ++ topic ∧
    (squashMessage cs com bot topic).take (squashTitle topic).length =
      squashTitle topic := by
  refine ⟨rfl, ?_⟩
  rcases le_or_lt (assembled (squashTitle topic) (bodyOf cs) (squashFooter topic)
      (coAuthorLines cs com bot)).length GIT_MAX with h | h
  · rw [squashMessage_of_le _ _ _ _ h]
    simp only [assembled, List.append_assoc]
    exact List.take_left _ _
  · rw [squashMessage_of_gt _ _ _ _ h]
    simp only [List.append_assoc]
    exact List.take_left _ _

/-- C9: the synthesized co-author block has exactly one
`Co-authored-by: Name <email>` line per distinct author identity — identities
equal to the committer's own or to the reserved bot identity contribute no
line — and lines appear in order of first appearance among the filtered
identities. -/
theorem coAuthorLines_dedup_characterization
    (cs : List CommitRecord) (com bot : List Nat) :
    (coAuthorLines cs com bot).Nodup ∧
    (∀ a, (coAuthorMark ++ a) ∈ coAuthorLines cs com bot ↔
      ((∃ c ∈ cs, identityOf c = a) ∧ a ≠ com ∧ a ≠ bot)) ∧
    coAuthorLines cs com bot =
      (jsSetDedup (identList cs com bot)).map (fun a => coAuthorMark ++ a) ∧
    (jsSetDedup (identList cs com bot)).Pairwise
      (fun x y => idxIn (identList cs com bot) x <
        idxIn (identList cs com bot) y) := by
  refine ⟨?_, ?_, rfl, by simpa [idxIn] using pairwise_indexOf_jsSetDedup (identList cs com bot)⟩
  · exact (nodup_jsSetDedup _).map (fun _ _ h => List.append_cancel_left h)
  · intro a
    constructor
    · intro hmem
      rcases List.mem_map.1 hmem with ⟨b, hb, heq⟩
      have hba : b = a := List.append_cancel_left heq
      subst hba
      have h1 := (mem_jsSetDedup _ _).1 hb
      rcases List.mem_filter.1 h1 with ⟨h2, h3⟩
      rcases List.mem_map.1 h2 with ⟨c, hc, hca⟩
      have h3' : b ≠ com ∧ b ≠ bot := by
        simpa [Bool.and_eq_true, Bool.not_eq_true', beq_eq_false_iff_ne] using h3
      exact ⟨⟨c, hc, hca⟩, h3'.1, h3'.2⟩
    · rintro ⟨⟨c, hc, hca⟩, hcom, hbot⟩
      refine List.mem_map.2 ⟨a, ?_, rfl⟩
      refine (mem_jsSetDedup _ _).2 ?_
      refine List.mem_filter.2 ⟨List.mem_map.2 ⟨c, hc, hca⟩, ?_⟩
      simp [hcom, hbot]

theorem nn_length : nn.length = 2 := rfl

theorem nl_length : nl.length = 1 := rfl

theorem fixedParts_length (t f c : List Nat) :
    (fixedParts t f c).length = t.length + f.length + c.length + 6 := by
  simp [fixedParts, List.length_append, nn_length]
  omega

theorem jsSliceTo_of_nonneg (l : List Nat) (e : Int) (he : 0 ≤ e) :
    jsSliceTo l e = l.take e.toNat := by
  simp [jsSliceTo, not_lt.2 he]

theorem utf8FixF_nil_eq (f : Nat) : utf8FixF f [] = [] := by
  cases f <;> rfl

theorem utf8FixF_one (f b : Nat) (rest : List Nat) (hb : b ≤ 127) :
    utf8FixF (f + 1) (b :: rest) = b :: utf8FixF f rest := by
  simp only [utf8FixF]
  rw [if_pos hb]

theorem utf8FixF_two_cut (f b : Nat) (hb1 : 194 ≤ b) (hb2 : b ≤ 223) :
    utf8FixF (f + 1) [b] = rcBytes := by
  simp only [utf8FixF]
  rw [if_neg (show ¬ b ≤ 127 from by omega), if_pos ⟨hb1, hb2⟩]

theorem utf8FixF_two (f b c : Nat) (rest : List Nat) (hb1 : 194 ≤ b) (hb2 : b ≤ 223)
    (hc1 : 128 ≤ c) (hc2 : c ≤ 191) :
    utf8FixF (f + 1) (b :: c :: rest) = b :: c :: utf8FixF f rest := by
  simp only [utf8FixF]
  rw [if_neg (show ¬ b ≤ 127 from by omega), if_pos ⟨hb1, hb2⟩, if_pos ⟨hc1, hc2⟩]

theorem utf8FixF_three_cut1 (f b : Nat) (hb1 : 224 ≤ b) (hb2 : b ≤ 239) :
    utf8FixF (f + 1) [b] = rcBytes := by
  simp only [utf8FixF]
  rw [if_neg (show ¬ b ≤ 127 from by omega),
    if_neg (show ¬ (194 ≤ b ∧ b ≤ 223) from by omega), if_pos ⟨hb1, hb2⟩]

theorem utf8FixF_three_cut2 (f b c : Nat) (hb1 : 224 ≤ b) (hb2 : b ≤ 239)
    (hc1 : lowB3 b ≤ c) (hc2 : c ≤ highB3 b) :
    utf8FixF (f + 1) [b, c] = rcBytes := by
  simp only [utf8FixF]
  rw [if_neg (show ¬ b ≤ 127 from by omega),
    if_neg (show ¬ (194 ≤ b ∧ b ≤ 223) from by omega), if_pos ⟨hb1, hb2⟩,
    if_pos ⟨hc1, hc2⟩]

theorem utf8FixF_three (f b c d : Nat) (rest : List Nat) (hb1 : 224 ≤ b) (hb2 : b ≤ 239)
    (hc1 : lowB3 b ≤ c) (hc2 : c ≤ highB3 b) (hd1 : 128 ≤ d) (hd2 : d ≤ 191) :
    utf8FixF (f + 1) (b :: c :: d :: rest) = b :: c :: d :: utf8FixF f rest := by
  simp only [utf8FixF]
  rw [if_neg (show ¬ b ≤ 127 from by omega),
    if_neg (show ¬ (194 ≤ b ∧ b ≤ 223) from by omega), if_pos ⟨hb1, hb2⟩,
    if_pos ⟨hc1, hc2⟩, if_pos ⟨hd1, hd2⟩]

theorem utf8FixF_four_cut1 (f b : Nat) (hb1 : 240 ≤ b) (hb2 : b ≤ 244) :
    utf8FixF (f + 1) [b] = rcBytes := by
  simp only [utf8FixF]
  rw [if_neg (show ¬ b ≤ 127 from by omega),
    if_neg (show ¬ (194 ≤ b ∧ b ≤ 223) from by omega),
    if_neg (show ¬ (224 ≤ b ∧ b ≤ 239) from by omega), if_pos ⟨hb1, hb2⟩]

theorem utf8FixF_four_cut2 (f b c : Nat) (hb1 : 240 ≤ b) (hb2 : b ≤ 244)
    (hc1 : lowB4 b ≤ c) (hc2 : c ≤ highB4 b) :
    utf8FixF (f + 1) [b, c] = rcBytes := by
  simp only [utf8FixF]
  rw [if_neg (show ¬ b ≤ 127 from by omega),
    if_neg (show ¬ (194 ≤ b ∧ b ≤ 223) from by omega),
    if_neg (show ¬ (224 ≤ b ∧ b ≤ 239) from by omega), if_pos ⟨hb1, hb2⟩,
    if_pos ⟨hc1, hc2⟩]

theorem utf8FixF_four_cut3 (f b c d : Nat) (hb1 : 240 ≤ b) (hb2 : b ≤ 244)
    (hc1 : lowB4 b ≤ c) (hc2 : c ≤ highB4 b) (hd1 : 128 ≤ d) (hd2 : d ≤ 191) :
    utf8FixF (f + 1) [b, c, d] = rcBytes := by
  simp only [utf8FixF]
  rw [if_neg (show ¬ b ≤ 127 from by omega),
    if_neg (show ¬ (194 ≤ b ∧ b ≤ 223) from by omega),
    if_neg (show ¬ (224 ≤ b ∧ b ≤ 239) from by omega), if_pos ⟨hb1, hb2⟩,
    if_pos ⟨hc1, hc2⟩, if_pos ⟨hd1, hd2⟩]

theorem utf8FixF_four (f b c d e2 : Nat) (rest : List Nat) (hb1 : 240 ≤ b)
    (hb2 : b ≤ 244) (hc1 : lowB4 b ≤ c) (hc2 : c ≤ highB4 b) (hd1 : 128 ≤ d)
    (hd2 : d ≤ 191) (he1 : 128 ≤ e2) (he2 : e2 ≤ 191) :
    utf8FixF (f + 1) (b :: c :: d :: e2 :: rest) =
      b :: c :: d :: e2 :: utf8FixF f rest := by
  simp only [utf8FixF]
  rw [if_neg (show ¬ b ≤ 127 from by omega),
    if_neg (show ¬ (194 ≤ b ∧ b ≤ 223) from by omega),
    if_neg (show ¬ (224 ≤ b ∧ b ≤ 239) from by omega), if_pos ⟨hb1, hb2⟩,
    if_pos ⟨hc1, hc2⟩, if_pos ⟨hd1, hd2⟩, if_pos ⟨he1, he2⟩]

/-- The central dichotomy: the lossy re-decode of a byte-prefix of a
well-formed UTF-8 sequence either is that prefix (the cut fell on a
character boundary) or keeps a shorter character-aligned prefix — at most
three bytes shorter — and appends the replacement character. -/
theorem utf8FixF_take (l : List Nat) (hv : Utf8Valid l) :
    ∀ n f, min n l.length ≤ f →
      utf8FixF f (l.take n) = l.take n ∨
      ∃ m, m < n ∧ n ≤ m + 3 ∧ n < l.length ∧
        utf8FixF f (l.take n) = l.take m ++ rcBytes := by
  induction hv with
  | nil =>
    intro n f _
    exact Or.inl (by rw [List.take_nil, utf8FixF_nil_eq])
  | one b rest hb hrest ih =>
    intro n f hf
    cases n with
    | zero => exact Or.inl (by rw [List.take_zero, utf8FixF_nil_eq])
    | succ n1 =>
      rw [List.length_cons] at hf
      cases f with
      | zero => omega
      | succ f1 =>
        rw [List.take_succ_cons, utf8FixF_one f1 b _ hb]
        rcases ih n1 f1 (by omega) with h | ⟨m, hm1, hm2, hm3, h⟩
        · exact Or.inl (by rw [h])
        · refine Or.inr ⟨m + 1, by omega, by omega, ?_, ?_⟩
          · rw [List.length_cons]; omega
          · rw [h, List.take_succ_cons, List.cons_append]
  | two b c rest hb1 hb2 hc1 hc2 hrest ih =>
    intro n f hf
    cases n with
    | zero => exact Or.inl (by rw [List.take_zero, utf8FixF_nil_eq])
    | succ n1 =>
      rw [List.length_cons, List.length_cons] at hf
      cases f with
      | zero => omega
      | succ f1 =>
        cases n1 with
        | zero =>
          refine Or.inr ⟨0, by omega, by omega,
            by rw [List.length_cons, List.length_cons]; omega, ?_⟩
          rw [List.take_succ_cons, List.take_zero, utf8FixF_two_cut f1 b hb1 hb2,
            List.take_zero, List.nil_append]
        | succ n2 =>
          rw [List.take_succ_cons, List.take_succ_cons,
            utf8FixF_two f1 b c _ hb1 hb2 hc1 hc2]
          rcases ih n2 f1 (by omega) with h | ⟨m, hm1, hm2, hm3, h⟩
          · exact Or.inl (by rw [h])
          · refine Or.inr ⟨m + 2, by omega, by omega, ?_, ?_⟩
            · rw [List.length_cons, List.length_cons]; omega
            · rw [h, List.take_succ_cons, List.take_succ_cons, List.cons_append,
                List.cons_append]
  | three b c d rest hb1 hb2 hc1 hc2 hd1 hd2 hrest ih =>
    intro n f hf
    cases n with
    | zero => exact Or.inl (by rw [List.take_zero, utf8FixF_nil_eq])
    | succ n1 =>
      rw [List.length_cons, List.length_cons, List.length_cons] at hf
      cases f with
      | zero => omega
      | succ f1 =>
        cases n1 with
        | zero =>
          refine Or.inr ⟨0, by omega, by omega,
            by rw [List.length_cons, List.length_cons, List.length_cons]; omega, ?_⟩
          rw [List.take_succ_cons, List.take_zero, utf8FixF_three_cut1 f1 b hb1 hb2,
            List.take_zero, List.nil_append]
        | succ n2 =>
          cases n2 with
          | zero =>
            refine Or.inr ⟨0, by omega, by omega,
              by rw [List.length_cons, List.length_cons, List.length_cons]; omega, ?_⟩
            rw [List.take_succ_cons, List.take_succ_cons, List.take_zero,
              utf8FixF_three_cut2 f1 b c hb1 hb2 hc1 hc2, List.take_zero, List.nil_append]
          | succ n3 =>
            rw [List.take_succ_cons, List.take_succ_cons, List.take_succ_cons,
              utf8FixF_three f1 b c d _ hb1 hb2 hc1 hc2 hd1 hd2]
            rcases ih n3 f1 (by omega) with h | ⟨m, hm1, hm2, hm3, h⟩
            · exact Or.inl (by rw [h])
            · refine Or.inr ⟨m + 3, by omega, by omega, ?_, ?_⟩
              · rw [List.length_cons, List.length_cons, List.length_cons]; omega
              · rw [h, List.take_succ_cons, List.take_succ_cons, List.take_succ_cons,
                  List.cons_append, List.cons_append, List.cons_append]
  | four b c d e2 rest hb1 hb2 hc1 hc2 hd1 hd2 he1 he2 hrest ih =>
    intro n f hf
    cases n with
    | zero => exact Or.inl (by rw [List.take_zero, utf8FixF_nil_eq])
    | succ n1 =>
      rw [List.length_cons, List.length_cons, List.length_cons,
        List.length_cons] at hf
      cases f with
      | zero => omega
      | succ f1 =>
        cases n1 with
        | zero =>
          refine Or.inr ⟨0, by omega, by omega,
            by rw [List.length_cons, List.length_cons, List.length_cons,
              List.length_cons]; omega, ?_⟩
          rw [List.take_succ_cons, List.take_zero, utf8FixF_four_cut1 f1 b hb1 hb2,
            List.take_zero, List.nil_append]
        | succ n2 =>
          cases n2 with
          | zero =>
            refine Or.inr ⟨0, by omega, by omega,
              by rw [List.length_cons, List.length_cons, List.length_cons,
                List.length_cons]; omega, ?_⟩
            rw [List.take_succ_cons, List.take_succ_cons, List.take_zero,
              utf8FixF_four_cut2 f1 b c hb1 hb2 hc1 hc2, List.take_zero, List.nil_append]
          | succ n3 =>
            cases n3 with
            | zero =>
              refine Or.inr ⟨0, by omega, by omega,
                by rw [List.length_cons, List.length_cons, List.length_cons,
                  List.length_cons]; omega, ?_⟩
              rw [List.take_succ_cons, List.take_succ_cons, List.take_succ_cons,
                List.take_zero, utf8FixF_four_cut3 f1 b c d hb1 hb2 hc1 hc2 hd1 hd2,
                List.take_zero, List.nil_append]
            | succ n4 =>
              rw [List.take_succ_cons, List.take_succ_cons, List.take_succ_cons,
                List.take_succ_cons,
                utf8FixF_four f1 b c d e2 _ hb1 hb2 hc1 hc2 hd1 hd2 he1 he2]
              rcases ih n4 f1 (by omega) with h | ⟨m, hm1, hm2, hm3, h⟩
              · exact Or.inl (by rw [h])
              · refine Or.inr ⟨m + 4, by omega, by omega, ?_, ?_⟩
                · rw [List.length_cons, List.length_cons, List.length_cons,
                    List.length_cons]; omega
                · rw [h, List.take_succ_cons, List.take_succ_cons, List.take_succ_cons,
                    List.take_succ_cons, List.cons_append, List.cons_append,
                    List.cons_append, List.cons_append]

/-- The dichotomy at the `utf8Fix` entry point. -/
theorem utf8Fix_take (l : List Nat) (hv : Utf8Valid l) (n : Nat) :
    utf8Fix (l.take n) = l.take n ∨
    ∃ m, m < n ∧ n ≤ m + 3 ∧ n < l.length ∧
      utf8Fix (l.take n) = l.take m ++ rcBytes :=
  utf8FixF_take l hv n (l.take n).length (by rw [List.length_take])

/-- The lossy re-decode is the identity on well-formed UTF-8. -/
theorem utf8Fix_of_valid (l : List Nat) (hv : Utf8Valid l) : utf8Fix l = l := by
  have h := utf8Fix_take l hv l.length
  rw [List.take_length] at h
  rcases h with h | ⟨m, -, -, hlt, -⟩
  · exact h
  · exact absurd hlt (lt_irrefl _)

theorem utf8FixF_ascii (l : List Nat) (h : ∀ x ∈ l, x ≤ 127) :
    ∀ f, l.length ≤ f → utf8FixF f l = l := by
  induction l with
  | nil => intro f _; exact utf8FixF_nil_eq f
  | cons b rest ih =>
    intro f hf
    rw [List.length_cons] at hf
    cases f with
    | zero => omega
    | succ f1 =>
      rw [utf8FixF_one f1 b rest (h b (List.mem_cons_self b rest)),
        ih (fun x hx => h x (List.mem_cons_of_mem b hx)) f1 (by omega)]

/-- On pure ASCII every cut falls on a character boundary, so the lossy
re-decode is the identity. -/
theorem utf8Fix_ascii (l : List Nat) (h : ∀ x ∈ l, x ≤ 127) : utf8Fix l = l :=
  utf8FixF_ascii l h l.length le_rfl

/-- Pure ASCII byte lists are well-formed UTF-8. -/
theorem utf8Valid_of_ascii (l : List Nat) (h : ∀ x ∈ l, x ≤ 127) : Utf8Valid l := by
  induction l with
  | nil => exact Utf8Valid.nil
  | cons b rest ih =>
    exact Utf8Valid.one b rest (h b (List.mem_cons_self b rest))
      (ih fun x hx => h x (List.mem_cons_of_mem b hx))

theorem rcBytes_length : rcBytes.length = 3 := rfl

/-- Re-decoding a byte-prefix of well-formed UTF-8 overshoots the prefix
length by at most two bytes (the replacement character is three bytes and
displaces at least one cut byte). -/
theorem utf8Fix_take_length_le (l : List Nat) (hv : Utf8Valid l) (n : Nat) :
    (utf8Fix (l.take n)).length ≤ n + 2 := by
  rcases utf8Fix_take l hv n with h | ⟨m, hm1, -, -, h⟩
  · rw [h, List.length_take]; omega
  · rw [h, List.length_append, List.length_take, rcBytes_length]; omega

/-- In the overflow branch the body slice is an honest `take` of the body
whenever the fixed parts fit the budget; the committed body is its lossy
re-decode. -/
theorem squashMessage_overflow_take (cs : List CommitRecord) (com bot topic : List Nat)
    (hover : GIT_MAX < (assembled (squashTitle topic) (bodyOf cs) (squashFooter topic)
      (coAuthorLines cs com bot)).length)
    (hfix : (fixedParts (squashTitle topic) (squashFooter topic)
      (List.intercalate nl (coAuthorLines cs com bot))).length ≤ GIT_MAX) :
    squashMessage cs com bot topic =
      squashTitle topic ++ nn ++
        utf8Fix ((bodyOf cs).take (GIT_MAX - (fixedParts (squashTitle topic)
          (squashFooter topic)
          (List.intercalate nl (coAuthorLines cs com bot))).length)) ++
        nn ++ squashFooter topic ++ nn ++
        List.intercalate nl (coAuthorLines cs com bot) := by
  rw [squashMessage_of_gt _ _ _ _ hover]
  have hfix' : ((fixedParts (squashTitle topic) (squashFooter topic)
      (List.intercalate nl (coAuthorLines cs com bot))).length : Int) ≤ (GIT_MAX : Int) := by
    exact_mod_cast hfix
  rw [jsSliceTo_of_nonneg _ _ (by omega)]
  have ht : ((GIT_MAX : Int) - ((fixedParts (squashTitle topic) (squashFooter topic)
      (List.intercalate nl (coAuthorLines cs com bot))).length : Int)).toNat =
      GIT_MAX - (fixedParts (squashTitle topic) (squashFooter topic)
        (List.intercalate nl (coAuthorLines cs com bot))).length := by
    omega
  rw [ht]

/-- Length of the overflow-branch result: the fixed parts plus the re-decoded
truncated body. -/
theorem squashMessage_overflow_length (cs : List CommitRecord) (com bot topic : List Nat)
    (hover : GIT_MAX < (assembled (squashTitle topic) (bodyOf cs) (squashFooter topic)
      (coAuthorLines cs com bot)).length)
    (hfix : (fixedParts (squashTitle topic) (squashFooter topic)
      (List.intercalate nl (coAuthorLines cs com bot))).length ≤ GIT_MAX) :
    (squashMessage cs com bot topic).length =
      (fixedParts (squashTitle topic) (squashFooter topic)
        (List.intercalate nl (coAuthorLines cs com bot))).length +
      (utf8Fix ((bodyOf cs).take (GIT_MAX - (fixedParts (squashTitle topic)
        (squashFooter topic)
        (List.intercalate nl (coAuthorLines cs com bot))).length))).length := by
  rw [squashMessage_overflow_take cs com bot topic hover hfix]
  have hF := fixedParts_length (squashTitle topic) (squashFooter topic)
    (List.intercalate nl (coAuthorLines cs com bot))
  simp only [List.length_append, nn_length]
  omega

/-- C3 (amended): whenever the fixed parts — title, blank-line separators,
footer and co-author text — fit within the 65536-byte budget and the
aggregated body is well-formed UTF-8 (as every JavaScript string is once
encoded), the synthesized squash message exceeds the budget by at most two
bytes: the byte budget can split a multi-byte UTF-8 character of the body,
whose incomplete tail re-decodes to the three-byte replacement character
(line 194).  When no multi-byte character straddles the cut — in particular
whenever the body is pure ASCII — the message fits the budget, and a message
that already fits is returned completely unmodified.  (The unamended claim
also fails when the fixed parts alone exceed the budget, e.g. for a very
long topic name or co-author block, since only the body is ever
truncated.) -/
theorem squashMessage_respects_budget (cs : List CommitRecord) (com bot topic : List Nat)
    (hfix : (fixedParts (squashTitle topic) (squashFooter topic)
      (List.intercalate nl (coAuthorLines cs com bot))).length ≤ GIT_MAX)
    (hv : Utf8Valid (bodyOf cs)) :
    (squashMessage cs com bot topic).length ≤ GIT_MAX + 2 ∧
    ((∀ x ∈ bodyOf cs, x ≤ 127) →
      (squashMessage cs com bot topic).length ≤ GIT_MAX) ∧
    ((assembled (squashTitle topic) (bodyOf cs) (squashFooter topic)
        (coAuthorLines cs com bot)).length ≤ GIT_MAX →
      squashMessage cs com bot topic =
        assembled (squashTitle topic) (bodyOf cs) (squashFooter topic)
          (coAuthorLines cs com bot)) := by
  rcases le_or_lt (assembled (squashTitle topic) (bodyOf cs) (squashFooter topic)
      (coAuthorLines cs com bot)).length GIT_MAX with h | h
  · refine ⟨?_, ?_, ?_⟩
    · rw [squashMessage_of_le _ _ _ _ h]; omega
    · intro _; rw [squashMessage_of_le _ _ _ _ h]; exact h
    · intro _; exact squashMessage_of_le _ _ _ _ h
  · refine ⟨?_, ?_, ?_⟩
    · rw [squashMessage_overflow_length cs com bot topic h hfix]
      have hb := utf8Fix_take_length_le (bodyOf cs) hv
        (GIT_MAX - (fixedParts (squashTitle topic) (squashFooter topic)
          (List.intercalate nl (coAuthorLines cs com bot))).length)
      omega
    · intro hascii
      rw [squashMessage_overflow_length cs com bot topic h hfix]
      have hba : utf8Fix ((bodyOf cs).take (GIT_MAX - (fixedParts (squashTitle topic)
          (squashFooter topic)
          (List.intercalate nl (coAuthorLines cs com bot))).length)) =
          (bodyOf cs).take (GIT_MAX - (fixedParts (squashTitle topic)
            (squashFooter topic)
            (List.intercalate nl (coAuthorLines cs com bot))).length) :=
        utf8Fix_ascii _ (fun x hx => hascii x (List.take_subset _ _ hx))
      rw [hba, List.length_take]
      omega
    · intro hcon
      exact absurd hcon (by omega)

/-- C3 (witness): a concrete instance of the amended budget theorem. -/
theorem squashMessage_respects_budget_witness :
    (fixedParts (squashTitle (utf8Str "t")) (squashFooter (utf8Str "t"))
      (List.intercalate nl (coAuthorLines [⟨utf8Str "a", utf8Str "a@a", utf8Str "hi"⟩]
        (utf8Str "c <c@c>") botIdentity))).length ≤ GIT_MAX ∧
    Utf8Valid (bodyOf [⟨utf8Str "a", utf8Str "a@a", utf8Str "hi"⟩]) ∧
    ((squashMessage [⟨utf8Str "a", utf8Str "a@a", utf8Str "hi"⟩]
        (utf8Str "c <c@c>") botIdentity (utf8Str "t")).length ≤ GIT_MAX + 2 ∧
      ((∀ x ∈ bodyOf [⟨utf8Str "a", utf8Str "a@a", utf8Str "hi"⟩], x ≤ 127) →
        (squashMessage [⟨utf8Str "a", utf8Str "a@a", utf8Str "hi"⟩]
          (utf8Str "c <c@c>") botIdentity (utf8Str "t")).length ≤ GIT_MAX) ∧
      ((assembled (squashTitle (utf8Str "t"))
          (bodyOf [⟨utf8Str "a", utf8Str "a@a", utf8Str "hi"⟩])
          (squashFooter (utf8Str "t"))
          (coAuthorLines [⟨utf8Str "a", utf8Str "a@a", utf8Str "hi"⟩]
            (utf8Str "c <c@c>") botIdentity)).length ≤ GIT_MAX →
        squashMessage [⟨utf8Str "a", utf8Str "a@a", utf8Str "hi"⟩]
            (utf8Str "c <c@c>") botIdentity (utf8Str "t") =
          assembled (squashTitle (utf8Str "t"))
            (bodyOf [⟨utf8Str "a", utf8Str "a@a", utf8Str "hi"⟩])
            (squashFooter (utf8Str "t"))
            (coAuthorLines [⟨utf8Str "a", utf8Str "a@a", utf8Str "hi"⟩]
              (utf8Str "c <c@c>") botIdentity))) := by
  have hv : Utf8Valid (bodyOf [⟨utf8Str "a", utf8Str "a@a", utf8Str "hi"⟩]) :=
    utf8Valid_of_ascii _ (by decide)
  exact ⟨by decide, hv, squashMessage_respects_budget _ _ _ _ (by decide) hv⟩

theorem dropWhile_ws_replicate97 (n : Nat) :
    List.dropWhile isWsByte (List.replicate n 97) = List.replicate n 97 := by
  cases n with
  | zero => rfl
  | succ m =>
    rw [List.replicate_succ, List.dropWhile_cons]
    simp [isWsByte]

theorem trimBytes_replicate97 (n : Nat) :
    trimBytes (List.replicate n 97) = List.replicate n 97 := by
  rw [trimBytes, dropWhile_ws_replicate97, List.reverse_replicate,
    dropWhile_ws_replicate97, List.reverse_replicate]

/-- C3 (counterexample): with one small source commit and a 70000-byte topic
name, the fixed parts alone exceed the budget, and the synthesized message
is longer than 65536 bytes — the unamended claim is false. -/
theorem squashMessage_exceeds_budget_on_long_topic :
    GIT_MAX < (squashMessage [⟨utf8Str "n", utf8Str "e", utf8Str "x"⟩]
      (utf8Str "z <z@z>") botIdentity (List.replicate 70000 97)).length := by
  have hTlen : (List.replicate 70000 97).length = 70000 := List.length_replicate _ _
  have h8 : (utf8Str "squash: ").length = 8 := by decide
  have h15 : (utf8Str "Squashed from \x27").length = 15 := by decide
  have h1 : (utf8Str "\x27").length = 1 := by decide
  have htitle : (squashTitle (List.replicate 70000 97)).length = 70008 := by
    rw [squashTitle, List.length_append, h8, hTlen]
  have hfooter : (squashFooter (List.replicate 70000 97)).length = 70016 := by
    rw [squashFooter, List.length_append, List.length_append, h15, hTlen, h1]
  have hco : coAuthorLines [⟨utf8Str "n", utf8Str "e", utf8Str "x"⟩]
      (utf8Str "z <z@z>") botIdentity = [utf8Str "Co-authored-by: n <e>"] := by decide
  have hbody : bodyOf [⟨utf8Str "n", utf8Str "e", utf8Str "x"⟩] = utf8Str "x" := by decide
  have hmsg0 : GIT_MAX <
      (assembled (squashTitle (List.replicate 70000 97))
        (bodyOf [⟨utf8Str "n", utf8Str "e", utf8Str "x"⟩])
        (squashFooter (List.replicate 70000 97))
        (coAuthorLines [⟨utf8Str "n", utf8Str "e", utf8Str "x"⟩]
          (utf8Str "z <z@z>") botIdentity)).length := by
    rw [assembled, hbody, hco]
    have hne : ([utf8Str "Co-authored-by: n <e>"] : List (List Nat)) ≠ [] := by decide
    rw [if_neg hne]
    have hcoI : (List.intercalate nl [utf8Str "Co-authored-by: n <e>"]).length = 21 := by decide
    have hx1 : (utf8Str "x").length = 1 := by decide
    rw [List.length_append, List.length_append, List.length_append,
      List.length_append, List.length_append, htitle, hfooter,
      List.length_append, hcoI, hx1, nn_length]
    have hG : GIT_MAX = 65536 := rfl
    omega
  rw [squashMessage_of_gt _ _ _ _ hmsg0]
  rw [List.length_append, List.length_append, List.length_append,
    List.length_append, List.length_append, List.length_append,
    htitle, hfooter, nn_length]
  have hG : GIT_MAX = 65536 := rfl
  omega

/-- C4 (amended): whenever the assembled squash message exceeds 65536 bytes,
the fixed parts fit within the budget, and the aggregated body is well-formed
UTF-8, the recomputed message holds the title, the footer and the co-author
text byte-identical and replaces only the aggregated body, which becomes the
lossy re-decode of its byte slice against the remaining budget: either an
honest byte prefix of the body (the slice boundary fell on a character
boundary) or a shorter character-aligned prefix — at most three bytes
shorter — followed by the three-byte replacement character (the slice cut a
multi-byte character).  The message never exceeds 65538 bytes and uses at
least the whole budget whenever the body is long enough.  Unlike the claim,
the recomputed layout always carries the co-author separator tail, so an
empty co-author block leaves a trailing blank-line separator after the
footer. -/
theorem squashMessage_truncation_frame (cs : List CommitRecord) (com bot topic : List Nat)
    (hover : GIT_MAX < (assembled (squashTitle topic) (bodyOf cs) (squashFooter topic)
      (coAuthorLines cs com bot)).length)
    (hfix : (fixedParts (squashTitle topic) (squashFooter topic)
      (List.intercalate nl (coAuthorLines cs com bot))).length ≤ GIT_MAX)
    (hv : Utf8Valid (bodyOf cs)) :
    squashMessage cs com bot topic =
      squashTitle topic ++ nn ++
        utf8Fix ((bodyOf cs).take (GIT_MAX - (fixedParts (squashTitle topic)
          (squashFooter topic)
          (List.intercalate nl (coAuthorLines cs com bot))).length)) ++
        nn ++ squashFooter topic ++ nn ++
        List.intercalate nl (coAuthorLines cs com bot) ∧
    (utf8Fix ((bodyOf cs).take (GIT_MAX - (fixedParts (squashTitle topic)
        (squashFooter topic)
        (List.intercalate nl (coAuthorLines cs com bot))).length)) =
      (bodyOf cs).take (GIT_MAX - (fixedParts (squashTitle topic) (squashFooter topic)
        (List.intercalate nl (coAuthorLines cs com bot))).length) ∨
      ∃ m, m < GIT_MAX - (fixedParts (squashTitle topic) (squashFooter topic)
          (List.intercalate nl (coAuthorLines cs com bot))).length ∧
        GIT_MAX - (fixedParts (squashTitle topic) (squashFooter topic)
          (List.intercalate nl (coAuthorLines cs com bot))).length ≤ m + 3 ∧
        GIT_MAX - (fixedParts (squashTitle topic) (squashFooter topic)
          (List.intercalate nl (coAuthorLines cs com bot))).length <
          (bodyOf cs).length ∧
        utf8Fix ((bodyOf cs).take (GIT_MAX - (fixedParts (squashTitle topic)
          (squashFooter topic)
          (List.intercalate nl (coAuthorLines cs com bot))).length)) =
          (bodyOf cs).take m ++ rcBytes) ∧
    (squashMessage cs com bot topic).length ≤ GIT_MAX + 2 ∧
    (GIT_MAX - (fixedParts (squashTitle topic) (squashFooter topic)
        (List.intercalate nl (coAuthorLines cs com bot))).length < (bodyOf cs).length →
      GIT_MAX ≤ (squashMessage cs com bot topic).length) := by
  refine ⟨squashMessage_overflow_take cs com bot topic hover hfix,
    utf8Fix_take (bodyOf cs) hv _, ?_, ?_⟩
  · rw [squashMessage_overflow_length cs com bot topic hover hfix]
    have hb := utf8Fix_take_length_le (bodyOf cs) hv
      (GIT_MAX - (fixedParts (squashTitle topic) (squashFooter topic)
        (List.intercalate nl (coAuthorLines cs com bot))).length)
    omega
  · intro hlong
    rw [squashMessage_overflow_length cs com bot topic hover hfix]
    rcases utf8Fix_take (bodyOf cs) hv (GIT_MAX - (fixedParts (squashTitle topic)
        (squashFooter topic)
        (List.intercalate nl (coAuthorLines cs com bot))).length) with
      h | ⟨m, hm1, hm2, hm3, h⟩
    · rw [h, List.length_take]; omega
    · rw [h, List.length_append, List.length_take, rcBytes_length]; omega

theorem intercalate_single (s x : List Nat) : List.intercalate s [x] = x := by
  simp [List.intercalate]

/-- C4 (witness): a concrete overflowing instance of the amended frame
theorem, with one 70000-byte commit body and one co-author. -/
theorem squashMessage_truncation_frame_witness :
    GIT_MAX < (assembled (squashTitle (utf8Str "t"))
      (bodyOf [⟨utf8Str "n", utf8Str "e", List.replicate 70000 97⟩])
      (squashFooter (utf8Str "t"))
      (coAuthorLines [⟨utf8Str "n", utf8Str "e", List.replicate 70000 97⟩]
        (utf8Str "z <z@z>") botIdentity)).length ∧
    (fixedParts (squashTitle (utf8Str "t")) (squashFooter (utf8Str "t"))
      (List.intercalate nl (coAuthorLines [⟨utf8Str "n", utf8Str "e", List.replicate 70000 97⟩]
        (utf8Str "z <z@z>") botIdentity))).length ≤ GIT_MAX ∧
    Utf8Valid (bodyOf [⟨utf8Str "n", utf8Str "e", List.replicate 70000 97⟩]) ∧
    squashMessage [⟨utf8Str "n", utf8Str "e", List.replicate 70000 97⟩]
        (utf8Str "z <z@z>") botIdentity (utf8Str "t") =
      squashTitle (utf8Str "t") ++ nn ++
        utf8Fix ((bodyOf [⟨utf8Str "n", utf8Str "e", List.replicate 70000 97⟩]).take
          (GIT_MAX - (fixedParts (squashTitle (utf8Str "t")) (squashFooter (utf8Str "t"))
            (List.intercalate nl (coAuthorLines [⟨utf8Str "n", utf8Str "e", List.replicate 70000 97⟩]
              (utf8Str "z <z@z>") botIdentity))).length)) ++
        nn ++ squashFooter (utf8Str "t") ++ nn ++
        List.intercalate nl (coAuthorLines [⟨utf8Str "n", utf8Str "e", List.replicate 70000 97⟩]
          (utf8Str "z <z@z>") botIdentity) := by
  have hco : coAuthorLines [⟨utf8Str "n", utf8Str "e", List.replicate 70000 97⟩]
      (utf8Str "z <z@z>") botIdentity = [utf8Str "Co-authored-by: n <e>"] := by decide
  have hbody : bodyOf [⟨utf8Str "n", utf8Str "e", List.replicate 70000 97⟩] =
      List.replicate 70000 97 := by
    rw [bodyOf]
    rw [show ([⟨utf8Str "n", utf8Str "e", List.replicate 70000 97⟩] :
      List CommitRecord).map (fun c => c.body) = [List.replicate 70000 97] from rfl]
    rw [intercalate_single, trimBytes_replicate97]
  have htitle : (squashTitle (utf8Str "t")).length = 9 := by decide
  have hfooter : (squashFooter (utf8Str "t")).length = 17 := by decide
  have hcoI : (List.intercalate nl [utf8Str "Co-authored-by: n <e>"]).length = 21 := by decide
  have hover : GIT_MAX < (assembled (squashTitle (utf8Str "t"))
      (bodyOf [⟨utf8Str "n", utf8Str "e", List.replicate 70000 97⟩])
      (squashFooter (utf8Str "t"))
      (coAuthorLines [⟨utf8Str "n", utf8Str "e", List.replicate 70000 97⟩]
        (utf8Str "z <z@z>") botIdentity)).length := by
    rw [assembled, hbody, hco]
    have hne : ([utf8Str "Co-authored-by: n <e>"] : List (List Nat)) ≠ [] := by decide
    rw [if_neg hne]
    rw [List.length_append, List.length_append, List.length_append,
      List.length_append, List.length_append, htitle, hfooter,
      List.length_append, hcoI, List.length_replicate, nn_length]
    have hG : GIT_MAX = 65536 := rfl
    omega
  have hfix : (fixedParts (squashTitle (utf8Str "t")) (squashFooter (utf8Str "t"))
      (List.intercalate nl (coAuthorLines [⟨utf8Str "n", utf8Str "e", List.replicate 70000 97⟩]
        (utf8Str "z <z@z>") botIdentity))).length ≤ GIT_MAX := by
    rw [hco]
    decide
  have hvb : Utf8Valid (bodyOf [⟨utf8Str "n", utf8Str "e", List.replicate 70000 97⟩]) := by
    rw [hbody]
    exact utf8Valid_of_ascii _ (fun x hx => by rw [List.eq_of_mem_replicate hx]; decide)
  exact ⟨hover, hfix, hvb, (squashMessage_truncation_frame _ _ _ _ hover hfix hvb).1⟩

theorem getLast?_append_of_ne_nil (l₁ l₂ : List Nat) (h : l₂ ≠ []) :
    (l₁ ++ l₂).getLast? = l₂.getLast? := by
  induction l₁ with
  | nil => rfl
  | cons a as ih =>
    rw [List.cons_append, List.getLast?_cons, ih]
    cases l₂ with
    | nil => exact absurd rfl h
    | cons b bs => simp [List.getLast?_cons]

/-- C4 (counterexample): with a single oversized commit authored by the
committer (so the co-author block is empty), the source's truncated message
is not the claim's recomputation: the source appends the co-author separator
unconditionally, leaving a trailing blank line after the footer, so the two
messages differ (the source's ends in a newline byte, the claim's in the
footer's closing quote). -/
theorem squashMessage_ne_specTruncatedMessage :
    squashMessage [⟨utf8Str "z", utf8Str "z@z", List.replicate 70000 97⟩]
        (utf8Str "z <z@z>") botIdentity (utf8Str "t") ≠
      specTruncatedMessage [⟨utf8Str "z", utf8Str "z@z", List.replicate 70000 97⟩]
        (utf8Str "z <z@z>") botIdentity (utf8Str "t") := by
  have hco : coAuthorLines [⟨utf8Str "z", utf8Str "z@z", List.replicate 70000 97⟩]
      (utf8Str "z <z@z>") botIdentity = ([] : List (List Nat)) := by decide
  have hbody : bodyOf [⟨utf8Str "z", utf8Str "z@z", List.replicate 70000 97⟩] =
      List.replicate 70000 97 := by
    rw [bodyOf]
    rw [show ([⟨utf8Str "z", utf8Str "z@z", List.replicate 70000 97⟩] :
      List CommitRecord).map (fun c => c.body) = [List.replicate 70000 97] from rfl]
    rw [intercalate_single, trimBytes_replicate97]
  have htitle : (squashTitle (utf8Str "t")).length = 9 := by decide
  have hfooter : (squashFooter (utf8Str "t")).length = 17 := by decide
  have hover : GIT_MAX < (assembled (squashTitle (utf8Str "t"))
      (bodyOf [⟨utf8Str "z", utf8Str "z@z", List.replicate 70000 97⟩])
      (squashFooter (utf8Str "t"))
      (coAuthorLines [⟨utf8Str "z", utf8Str "z@z", List.replicate 70000 97⟩]
        (utf8Str "z <z@z>") botIdentity)).length := by
    rw [assembled, hbody, hco, if_pos rfl, List.append_nil]
    rw [List.length_append, List.length_append, List.length_append,
      List.length_append, htitle, hfooter, List.length_replicate, nn_length]
    have hG : GIT_MAX = 65536 := rfl
    omega
  have hInil : List.intercalate nl ([] : List (List Nat)) = [] := rfl
  have hl : (squashMessage [⟨utf8Str "z", utf8Str "z@z", List.replicate 70000 97⟩]
      (utf8Str "z <z@z>") botIdentity (utf8Str "t")).getLast? = some 10 := by
    rw [squashMessage_of_gt _ _ _ _ hover, hco, hInil, List.append_nil]
    rw [getLast?_append_of_ne_nil _ nn (by decide)]
    decide
  have hr : (specTruncatedMessage [⟨utf8Str "z", utf8Str "z@z", List.replicate 70000 97⟩]
      (utf8Str "z <z@z>") botIdentity (utf8Str "t")).getLast? = some 39 := by
    rw [specTruncatedMessage, hco, assembled, if_pos rfl, List.append_nil]
    rw [getLast?_append_of_ne_nil _ (squashFooter (utf8Str "t")) (by decide)]
    decide
  intro heq
  rw [heq, hr] at hl
  exact absurd hl (by decide)

/-- C5 (counterexample): a merge in progress whose only unresolved path is
allow-listed but has no `ours` stage — the current side deleted
`.tiramiss/topics.txt` while the merged topic modified it.  The unamended
claim demands this merge be finalized with one commit (the unresolved set is
non-empty and entirely allow-listed); the source instead throws from
`git checkout --ours` (line 91), committing nothing and leaving the merge in
progress. -/
theorem tryAutoResolve_throws_on_missing_ours_stage :
    c5ThrowState.unmerged ≠ [] ∧
    (∀ pb ∈ c5ThrowState.unmerged, shouldKeepOursOnMergeConflict pb.1 = true) ∧
    tryAutoResolveMergeConflictKeepingOurs c5ThrowState = (c5ThrowState, none) := by
  decide

/-- C5 (amended): in an in-progress merge the Conflict Auto-Resolver
finalizes the merge with exactly one new commit iff the unresolved set is
non-empty and every unresolved path is both allow-listed and backed by an
`ours` index stage.  It propagates a git error (`none`) — with the state
completely untouched — iff some allow-listed unresolved path has no `ours`
stage, and in every run that does not finalize it creates zero commits and
leaves the merge in progress: it never commits while any path remains
unresolved. -/
theorem tryAutoResolve_all_or_nothing (s : ConflictState) (h : s.mergeHead = true) :
    (((tryAutoResolveMergeConflictKeepingOurs s).1.commitCount = s.commitCount + 1 ∧
      (tryAutoResolveMergeConflictKeepingOurs s).1.mergeHead = false ∧
      (tryAutoResolveMergeConflictKeepingOurs s).2 = some (true, [])) ↔
      (s.unmerged ≠ [] ∧ ∀ pb ∈ s.unmerged,
        shouldKeepOursOnMergeConflict pb.1 = true ∧ pb.2 = true)) ∧
    ((tryAutoResolveMergeConflictKeepingOurs s).2 = none ↔
      ∃ pb ∈ s.unmerged, shouldKeepOursOnMergeConflict pb.1 = true ∧ pb.2 = false) ∧
    ((tryAutoResolveMergeConflictKeepingOurs s).2 = none →
      (tryAutoResolveMergeConflictKeepingOurs s).1 = s) ∧
    ((tryAutoResolveMergeConflictKeepingOurs s).2 ≠ some (true, []) →
      ((tryAutoResolveMergeConflictKeepingOurs s).1.commitCount = s.commitCount ∧
       (tryAutoResolveMergeConflictKeepingOurs s).1.mergeHead = true)) := by
  rw [tryAutoResolveMergeConflictKeepingOurs]
  rw [h]
  simp only [Bool.not_true, Bool.false_eq_true, if_false]
  by_cases hu : s.unmerged = []
  · rw [if_pos hu]
    dsimp only
    refine ⟨⟨?_, ?_⟩, ⟨?_, ?_⟩, ?_, ?_⟩
    · rintro ⟨hc, -, -⟩
      omega
    · rintro ⟨hne, -⟩
      exact absurd hu hne
    · intro hnone
      exact absurd hnone (Option.some_ne_none _)
    · rintro ⟨pb, hpb, -⟩
      rw [hu] at hpb
      exact absurd hpb (List.not_mem_nil pb)
    · intro hnone
      exact absurd hnone (Option.some_ne_none _)
    · intro _
      exact ⟨rfl, h⟩
  · rw [if_neg hu]
    by_cases hk : s.unmerged.filter (fun pb => shouldKeepOursOnMergeConflict pb.1) = []
    · rw [if_pos hk]
      dsimp only
      refine ⟨⟨?_, ?_⟩, ⟨?_, ?_⟩, ?_, ?_⟩
      · rintro ⟨hc, -, -⟩
        omega
      · rintro ⟨hne, hall⟩
        rcases List.exists_mem_of_ne_nil _ hne with ⟨pb, hpb⟩
        have hmem : pb ∈ s.unmerged.filter (fun pb => shouldKeepOursOnMergeConflict pb.1) :=
          List.mem_filter.2 ⟨hpb, (hall pb hpb).1⟩
        rw [hk] at hmem
        exact absurd hmem (List.not_mem_nil pb)
      · intro hnone
        exact absurd hnone (Option.some_ne_none _)
      · rintro ⟨pb, hpb, hallow, -⟩
        have hmem : pb ∈ s.unmerged.filter (fun pb => shouldKeepOursOnMergeConflict pb.1) :=
          List.mem_filter.2 ⟨hpb, hallow⟩
        rw [hk] at hmem
        exact absurd hmem (List.not_mem_nil pb)
      · intro hnone
        exact absurd hnone (Option.some_ne_none _)
      · intro _
        exact ⟨rfl, h⟩
    · rw [if_neg hk]
      by_cases hth : (s.unmerged.filter (fun pb => shouldKeepOursOnMergeConflict pb.1)).any
          (fun pb => !pb.2) = true
      · rw [if_pos hth]
        dsimp only
        rcases List.any_eq_true.1 hth with ⟨pb, hpbf, hb⟩
        have hpb := (List.mem_filter.1 hpbf).1
        have hallow := (List.mem_filter.1 hpbf).2
        have hb2 : pb.2 = false := by simpa using hb
        refine ⟨⟨?_, ?_⟩, ⟨?_, ?_⟩, ?_, ?_⟩
        · rintro ⟨-, -, habs⟩
          exact Option.noConfusion habs
        · rintro ⟨-, hall⟩
          have := (hall pb hpb).2
          rw [this] at hb2
          exact absurd hb2 (by decide)
        · intro _
          exact ⟨pb, hpb, hallow, hb2⟩
        · intro _
          rfl
        · intro _
          rfl
        · intro _
          exact ⟨rfl, h⟩
      · rw [if_neg hth]
        have hours : ∀ pb ∈ s.unmerged, shouldKeepOursOnMergeConflict pb.1 = true →
            pb.2 = true := by
          intro pb hpb hallow
          cases hpb2 : pb.2 with
          | true => rfl
          | false =>
            exact absurd (List.any_eq_true.2 ⟨pb, List.mem_filter.2 ⟨hpb, hallow⟩,
              by rw [hpb2]; rfl⟩) hth
        by_cases hr : (s.unmerged.filter (fun pb => !shouldKeepOursOnMergeConflict pb.1)).length > 0
        · rw [if_pos hr]
          dsimp only
          refine ⟨⟨?_, ?_⟩, ⟨?_, ?_⟩, ?_, ?_⟩
          · rintro ⟨hc, -, -⟩
            omega
          · rintro ⟨-, hall⟩
            have hnil : s.unmerged.filter (fun pb => !shouldKeepOursOnMergeConflict pb.1) = [] := by
              rw [List.filter_eq_nil_iff]
              intro pb hpb
              simp [(hall pb hpb).1]
            rw [hnil] at hr
            simp at hr
          · intro hnone
            exact absurd hnone (Option.some_ne_none _)
          · rintro ⟨pb, hpb, hallow, hb2⟩
            have := hours pb hpb hallow
            rw [this] at hb2
            exact absurd hb2 (by decide)
          · intro hnone
            exact absurd hnone (Option.some_ne_none _)
          · intro _
            exact ⟨rfl, rfl⟩
        · rw [if_neg hr]
          dsimp only
          have hrem : s.unmerged.filter (fun pb => !shouldKeepOursOnMergeConflict pb.1) = [] := by
            rcases List.eq_nil_or_concat
              (s.unmerged.filter (fun pb => !shouldKeepOursOnMergeConflict pb.1))
              with h1 | ⟨l, a, h1⟩
            · exact h1
            · rw [h1] at hr
              simp at hr
          have hall : ∀ pb ∈ s.unmerged,
              shouldKeepOursOnMergeConflict pb.1 = true ∧ pb.2 = true := by
            intro pb hpb
            have hallow : shouldKeepOursOnMergeConflict pb.1 = true := by
              by_contra hnp
              have hmem : pb ∈ s.unmerged.filter (fun pb => !shouldKeepOursOnMergeConflict pb.1) :=
                List.mem_filter.2 ⟨hpb, by simp [hnp]⟩
              rw [hrem] at hmem
              exact absurd hmem (List.not_mem_nil pb)
            exact ⟨hallow, hours pb hpb hallow⟩
          refine ⟨⟨?_, ?_⟩, ⟨?_, ?_⟩, ?_, ?_⟩
          · intro _
            exact ⟨hu, hall⟩
          · intro _
            exact ⟨rfl, rfl, rfl⟩
          · intro hnone
            exact absurd hnone (Option.some_ne_none _)
          · rintro ⟨pb, hpb, hallow, hb2⟩
            have := (hall pb hpb).2
            rw [this] at hb2
            exact absurd hb2 (by decide)
          · intro hnone
            exact absurd hnone (Option.some_ne_none _)
          · intro hne
            exact absurd rfl hne

/-- C5 (witness): a merge in progress whose only unresolved path is under
`.tiramiss/` with an `ours` stage auto-resolves with exactly one new
commit. -/
theorem tryAutoResolve_all_or_nothing_witness :
    c5WitnessState.mergeHead = true ∧
    ((((tryAutoResolveMergeConflictKeepingOurs c5WitnessState).1.commitCount =
        c5WitnessState.commitCount + 1 ∧
      (tryAutoResolveMergeConflictKeepingOurs c5WitnessState).1.mergeHead = false ∧
      (tryAutoResolveMergeConflictKeepingOurs c5WitnessState).2 = some (true, [])) ↔
      (c5WitnessState.unmerged ≠ [] ∧ ∀ pb ∈ c5WitnessState.unmerged,
        shouldKeepOursOnMergeConflict pb.1 = true ∧ pb.2 = true)) ∧
    ((tryAutoResolveMergeConflictKeepingOurs c5WitnessState).2 = none ↔
      ∃ pb ∈ c5WitnessState.unmerged,
        shouldKeepOursOnMergeConflict pb.1 = true ∧ pb.2 = false) ∧
    ((tryAutoResolveMergeConflictKeepingOurs c5WitnessState).2 = none →
      (tryAutoResolveMergeConflictKeepingOurs c5WitnessState).1 = c5WitnessState) ∧
    ((tryAutoResolveMergeConflictKeepingOurs c5WitnessState).2 ≠ some (true, []) →
      ((tryAutoResolveMergeConflictKeepingOurs c5WitnessState).1.commitCount =
        c5WitnessState.commitCount ∧
       (tryAutoResolveMergeConflictKeepingOurs c5WitnessState).1.mergeHead = true))) :=
  ⟨rfl, tryAutoResolve_all_or_nothing c5WitnessState rfl⟩

/-- C6: ref resolution tries the topic name itself, then `origin/<topic>`,
then `upstream/<topic>`, returning the first candidate that resolves; it
fails with the ref-not-found error exactly when none of the three resolves,
and then the topic step aborts with the repository state unchanged (no
mutation for that topic). -/
theorem resolveTopicRef_order (s : Repo) (topic : String) :
    ((resolveName s topic).isSome = true → resolveTopicRef s topic = .ok topic) ∧
    ((resolveName s topic).isSome = false →
      (resolveName s ("origin/" ++ topic)).isSome = true →
      resolveTopicRef s topic = .ok ("origin/" ++ topic)) ∧
    ((resolveName s topic).isSome = false →
      (resolveName s ("origin/" ++ topic)).isSome = false →
      (resolveName s ("upstream/" ++ topic)).isSome = true →
      resolveTopicRef s topic = .ok ("upstream/" ++ topic)) ∧
    (resolveTopicRef s topic = .err (.refNotFound topic) ↔
      (resolveName s topic = none ∧
       resolveName s ("origin/" ++ topic) = none ∧
       resolveName s ("upstream/" ++ topic) = none)) ∧
    (∀ cfg, resolveTopicRef s topic = .err (.refNotFound topic) →
      applyTopicStep cfg s topic = (.err (.refNotFound topic), s)) := by
  refine ⟨?_, ?_, ?_, ?_, ?_⟩
  · intro h1
    rw [resolveTopicRef, if_pos h1]
  · intro h1 h2
    rw [resolveTopicRef, if_neg (by simp [h1]), if_pos h2]
  · intro h1 h2 h3
    rw [resolveTopicRef, if_neg (by simp [h1]), if_neg (by simp [h2]), if_pos h3]
  · rw [resolveTopicRef]
    by_cases h1 : (resolveName s topic).isSome
    · rw [if_pos h1]
      constructor
      · intro h; exact absurd h (by simp)
      · rintro ⟨hn, -, -⟩
        rw [hn] at h1
        simp at h1
    · rw [if_neg h1]
      by_cases h2 : (resolveName s ("origin/" ++ topic)).isSome
      · rw [if_pos h2]
        constructor
        · intro h; exact absurd h (by simp)
        · rintro ⟨-, hn, -⟩
          rw [hn] at h2
          simp at h2
      · rw [if_neg h2]
        by_cases h3 : (resolveName s ("upstream/" ++ topic)).isSome
        · rw [if_pos h3]
          constructor
          · intro h; exact absurd h (by simp)
          · rintro ⟨-, -, hn⟩
            rw [hn] at h3
            simp at h3
        · rw [if_neg h3]
          constructor
          · intro _
            refine ⟨?_, ?_, ?_⟩ <;> simp_all [Option.not_isSome_iff_eq_none]
          · intro _; rfl
  · intro cfg hfail
    rw [applyTopicStep, hfail]

/-- C6 (witness): the characterization at a concrete repository where the
topic resolves only under `origin/`. -/
theorem resolveTopicRef_order_witness :
    ((resolveName ⟨[], [("main", 0)], [("origin/t1", 1)], [], some "main", 0, true⟩ "t1").isSome = true →
      resolveTopicRef ⟨[], [("main", 0)], [("origin/t1", 1)], [], some "main", 0, true⟩ "t1" = .ok "t1") ∧
    ((resolveName ⟨[], [("main", 0)], [("origin/t1", 1)], [], some "main", 0, true⟩ "t1").isSome = false →
      (resolveName ⟨[], [("main", 0)], [("origin/t1", 1)], [], some "main", 0, true⟩ ("origin/" ++ "t1")).isSome = true →
      resolveTopicRef ⟨[], [("main", 0)], [("origin/t1", 1)], [], some "main", 0, true⟩ "t1" = .ok ("origin/" ++ "t1")) ∧
    ((resolveName ⟨[], [("main", 0)], [("origin/t1", 1)], [], some "main", 0, true⟩ "t1").isSome = false →
      (resolveName ⟨[], [("main", 0)], [("origin/t1", 1)], [], some "main", 0, true⟩ ("origin/" ++ "t1")).isSome = false →
      (resolveName ⟨[], [("main", 0)], [("origin/t1", 1)], [], some "main", 0, true⟩ ("upstream/" ++ "t1")).isSome = true →
      resolveTopicRef ⟨[], [("main", 0)], [("origin/t1", 1)], [], some "main", 0, true⟩ "t1" = .ok ("upstream/" ++ "t1")) ∧
    (resolveTopicRef ⟨[], [("main", 0)], [("origin/t1", 1)], [], some "main", 0, true⟩ "t1" =
        .err (.refNotFound "t1") ↔
      (resolveName ⟨[], [("main", 0)], [("origin/t1", 1)], [], some "main", 0, true⟩ "t1" = none ∧
       resolveName ⟨[], [("main", 0)], [("origin/t1", 1)], [], some "main", 0, true⟩ ("origin/" ++ "t1") = none ∧
       resolveName ⟨[], [("main", 0)], [("origin/t1", 1)], [], some "main", 0, true⟩ ("upstream/" ++ "t1") = none)) ∧
    (∀ cfg, resolveTopicRef ⟨[], [("main", 0)], [("origin/t1", 1)], [], some "main", 0, true⟩ "t1" =
        .err (.refNotFound "t1") →
      applyTopicStep cfg ⟨[], [("main", 0)], [("origin/t1", 1)], [], some "main", 0, true⟩ "t1" =
        (.err (.refNotFound "t1"), ⟨[], [("main", 0)], [("origin/t1", 1)], [], some "main", 0, true⟩)) :=
  resolveTopicRef_order ⟨[], [("main", 0)], [("origin/t1", 1)], [], some "main", 0, true⟩ "t1"

/-- C8: a topic is skipped (terminating with no repository mutation) exactly
when — under merge and cherry-pick — the resolved ref is already an ancestor
of the current head, and — under squash — the tree diff between the
head/topic merge base and the topic tip is empty; the squash criterion makes
no reference to ancestry. -/
theorem strategy_skip_characterization (cfg : Cfg) (s : Repo) (name : String) (t : Nat)
    (hres : resolveName s name = some t) :
    ((applyMerge s name).1 = .ok .skipped ↔ isAnc s.commits t s.headId = true) ∧
    ((applyMerge s name).1 = .ok .skipped → (applyMerge s name).2 = s) ∧
    ((applyPick s name cfg.baseRef).1 = .ok .skipped ↔ isAnc s.commits t s.headId = true) ∧
    ((applyPick s name cfg.baseRef).1 = .ok .skipped → (applyPick s name cfg.baseRef).2.1 = s) ∧
    (∀ common, mergeBase s.commits s.headId t = some common →
      (((applySquash cfg s name).1 = .ok .skipped ↔
        treeOf s.commits common = treeOf s.commits t) ∧
       ((applySquash cfg s name).1 = .ok .skipped → (applySquash cfg s name).2 = s))) := by
  have hmerge : ((applyMerge s name).1 = .ok .skipped ↔ isAnc s.commits t s.headId = true) ∧
      ((applyMerge s name).1 = .ok .skipped → (applyMerge s name).2 = s) := by
    rw [applyMerge, hres]
    dsimp only
    by_cases hanc : isAnc s.commits t s.headId = true
    · rw [if_pos hanc]
      exact ⟨by simp [hanc], fun _ => rfl⟩
    · rw [if_neg hanc]
      rcases hmb : mergeBase s.commits s.headId t with _ | b
      · exact ⟨by simp [hmb, hanc], by simp [hmb]⟩
      · rcases h3 : threeWay (treeOf s.commits b) (treeOf s.commits s.headId)
            (treeOf s.commits t) with _ | m
        · exact ⟨by simp [hmb, h3, hanc], by simp [hmb, h3]⟩
        · exact ⟨by simp [hmb, h3, hanc], by simp [hmb, h3]⟩
  have hpick : ((applyPick s name cfg.baseRef).1 = .ok .skipped ↔
        isAnc s.commits t s.headId = true) ∧
      ((applyPick s name cfg.baseRef).1 = .ok .skipped →
        (applyPick s name cfg.baseRef).2.1 = s) := by
    rw [applyPick, hres]
    dsimp only
    by_cases hanc : isAnc s.commits t s.headId = true
    · rw [if_pos hanc]
      exact ⟨by simp [hanc], fun _ => rfl⟩
    · rw [if_neg hanc]
      rcases hbr : resolveName s cfg.baseRef with _ | br
      · exact ⟨by simp [hbr, hanc], by simp [hbr]⟩
      · rcases hmb : mergeBase s.commits t br with _ | base
        · exact ⟨by simp [hbr, hmb, hanc], by simp [hbr, hmb]⟩
        · rcases hp : pickLoop s (listCommits s.commits base t) with ⟨r, s', picked⟩
          rcases r with _ | e
          · exact ⟨by simp [hbr, hmb, hp, hanc], by simp [hbr, hmb, hp]⟩
          · exact ⟨by simp [hbr, hmb, hp, hanc], by simp [hbr, hmb, hp]⟩
  refine ⟨hmerge.1, hmerge.2, hpick.1, hpick.2, ?_⟩
  intro common hmb
  rw [applySquash, hres]
  dsimp only
  rw [hmb]
  dsimp only
  by_cases hdiff : treeOf s.commits common = treeOf s.commits t
  · rw [if_pos hdiff]
    exact ⟨by simp [hdiff], fun _ => rfl⟩
  · rw [if_neg hdiff]
    rcases h3 : threeWay (treeOf s.commits common) (treeOf s.commits s.headId)
        (treeOf s.commits t) with _ | m
    · exact ⟨by simp [h3, hdiff], by simp [h3]⟩
    · by_cases hm : m = treeOf s.commits s.headId
      · exact ⟨by simp [h3, hm, hdiff], by simp [h3, hm]⟩
      · exact ⟨by simp [h3, hm, hdiff], by simp [h3, hm]⟩

/-- C8 (witness): the skip characterization at a concrete repository; the
topic is not an ancestor of head, yet squash skips it because its diff
against the merge base is empty. -/
theorem strategy_skip_characterization_witness :
    resolveName skipWitnessRepo "t" = some 1 ∧
    isAnc skipWitnessRepo.commits 1 skipWitnessRepo.headId = false ∧
    (applySquash skipWitnessCfg skipWitnessRepo "t").1 = .ok .skipped ∧
    (((applyMerge skipWitnessRepo "t").1 = .ok .skipped ↔
        isAnc skipWitnessRepo.commits 1 skipWitnessRepo.headId = true) ∧
     ((applyMerge skipWitnessRepo "t").1 = .ok .skipped →
        (applyMerge skipWitnessRepo "t").2 = skipWitnessRepo) ∧
     ((applyPick skipWitnessRepo "t" skipWitnessCfg.baseRef).1 = .ok .skipped ↔
        isAnc skipWitnessRepo.commits 1 skipWitnessRepo.headId = true) ∧
     ((applyPick skipWitnessRepo "t" skipWitnessCfg.baseRef).1 = .ok .skipped →
        (applyPick skipWitnessRepo "t" skipWitnessCfg.baseRef).2.1 = skipWitnessRepo) ∧
     (∀ common, mergeBase skipWitnessRepo.commits skipWitnessRepo.headId 1 = some common →
       (((applySquash skipWitnessCfg skipWitnessRepo "t").1 = .ok .skipped ↔
          treeOf skipWitnessRepo.commits common = treeOf skipWitnessRepo.commits 1) ∧
        ((applySquash skipWitnessCfg skipWitnessRepo "t").1 = .ok .skipped →
          (applySquash skipWitnessCfg skipWitnessRepo "t").2 = skipWitnessRepo)))) :=
  ⟨by decide, by decide, by decide,
    strategy_skip_characterization skipWitnessCfg skipWitnessRepo "t" 1 (by decide)⟩

theorem mem_listCommits (g : List Commit) (base tip c : Nat) :
    c ∈ listCommits g base tip ↔
      (c < g.length ∧ c ≠ base ∧ isAnc g base c = true ∧ isAnc g c tip = true) := by
  rw [listCommits]
  simp only [List.mem_filter, List.mem_range, Bool.and_eq_true, Bool.not_eq_true',
    beq_eq_false_iff_ne]
  tauto

theorem listCommits_sorted (g : List Commit) (base tip : Nat) :
    List.Sorted (· < ·) (listCommits g base tip) := by
  rw [listCommits]
  exact (List.pairwise_lt_range _).filter _

theorem cherryPickOne_ok_commits (s : Repo) (c : Nat) (s' : Repo)
    (h : cherryPickOne s c = (.ok (), s')) :
    s'.commits.length = s.commits.length + 1 := by
  rw [cherryPickOne] at h
  rcases hp : parentsOf s.commits c with _ | ⟨p, ps⟩ <;> rw [hp] at h
  · simp at h
  · rcases ps with _ | ⟨q, qs⟩
    · dsimp only at h
      rcases h3 : threeWay (treeOf s.commits p) (treeOf s.commits s.headId)
          (treeOf s.commits c) with _ | m <;> rw [h3] at h <;> dsimp only at h
      · simp at h
      · by_cases hm : m = treeOf s.commits s.headId
        · rw [if_pos hm] at h
          simp at h
        · rw [if_neg hm] at h
          have hs := congrArg Prod.snd h
          dsimp only at hs
          rw [← hs, addCommit]
          cases s.headBranch <;> simp
    · simp at h

theorem pickLoop_ok (cs : List Nat) :
    ∀ s s' picked, pickLoop s cs = (.ok (), s', picked) →
      picked = cs ∧ s'.commits.length = s.commits.length + cs.length ∧
      (cs = [] → s' = s) := by
  induction cs with
  | nil =>
    intro s s' picked h
    rw [pickLoop] at h
    rcases h with ⟨rfl, rfl⟩
    exact ⟨rfl, rfl, fun _ => rfl⟩
  | cons c rest ih =>
    intro s s' picked h
    rw [pickLoop] at h
    rcases h1 : cherryPickOne s c with ⟨r1, s1⟩
    rw [h1] at h
    rcases r1 with u | e
    · dsimp only at h
      rcases h2 : pickLoop s1 rest with ⟨r2, s2, picked2⟩
      rw [h2] at h
      dsimp only at h
      rcases r2 with u2 | e2
      · cases u2
        simp only [Prod.mk.injEq] at h
        obtain ⟨-, rfl, rfl⟩ := h
        rcases ih s1 s2 picked2 h2 with ⟨hpk, hlen, -⟩
        refine ⟨by rw [hpk], ?_, by intro hc; cases hc⟩
        rw [hlen, cherryPickOne_ok_commits s c s1 h1, List.length_cons]
        omega
      · simp at h
    · dsimp only at h
      simp at h

/-- C7: under cherry-pick, for a topic not contained in head (with all git
queries succeeding), the commits applied are exactly those on the ancestry
path between the topic/base merge base and the topic tip, excluding the
merge base itself, in ascending (oldest-first) order; one commit is created
per applied source commit, and an empty range mutates nothing. -/
theorem applyPick_applies_ancestry_range (s : Repo) (name baseRef : String)
    (t br base : Nat)
    (hres : resolveName s name = some t)
    (hbase : resolveName s baseRef = some br)
    (hnotanc : isAnc s.commits t s.headId = false)
    (hmb : mergeBase s.commits t br = some base)
    (hok : (applyPick s name baseRef).1 = .ok .applied) :
    (applyPick s name baseRef).2.2 = listCommits s.commits base t ∧
    (∀ c, c ∈ listCommits s.commits base t ↔
      (c < s.commits.length ∧ c ≠ base ∧ isAnc s.commits base c = true ∧
        isAnc s.commits c t = true)) ∧
    List.Sorted (· < ·) (listCommits s.commits base t) ∧
    ((applyPick s name baseRef).2.1).commits.length =
      s.commits.length + (listCommits s.commits base t).length ∧
    (listCommits s.commits base t = [] → (applyPick s name baseRef).2.1 = s) := by
  rw [applyPick, hres] at hok ⊢
  dsimp only at hok ⊢
  rw [if_neg (by simp [hnotanc])] at hok ⊢
  rw [hbase] at hok ⊢
  dsimp only at hok ⊢
  rw [hmb] at hok ⊢
  dsimp only at hok ⊢
  rcases hp : pickLoop s (listCommits s.commits base t) with ⟨r, s', picked⟩
  rcases r with u | e
  · cases u
    rcases pickLoop_ok _ _ _ _ hp with ⟨hpk, hlen, hnil⟩
    exact ⟨hpk, fun c => mem_listCommits _ _ _ c, listCommits_sorted _ _ _,
      hlen, hnil⟩
  · rw [hp] at hok
    have hok2 : (ERes.err e : ERes Outcome) = ERes.ok Outcome.applied := hok
    exact nomatch hok2

/-- C7 (witness): the characterization at a concrete repository with one
commit in the range. -/
theorem applyPick_applies_ancestry_range_witness :
    resolveName pickWitnessRepo "t" = some 1 ∧
    resolveName pickWitnessRepo "b" = some 0 ∧
    isAnc pickWitnessRepo.commits 1 pickWitnessRepo.headId = false ∧
    mergeBase pickWitnessRepo.commits 1 0 = some 0 ∧
    (applyPick pickWitnessRepo "t" "b").1 = .ok .applied ∧
    ((applyPick pickWitnessRepo "t" "b").2.2 = listCommits pickWitnessRepo.commits 0 1 ∧
     (∀ c, c ∈ listCommits pickWitnessRepo.commits 0 1 ↔
       (c < pickWitnessRepo.commits.length ∧ c ≠ 0 ∧
        isAnc pickWitnessRepo.commits 0 c = true ∧ isAnc pickWitnessRepo.commits c 1 = true)) ∧
     List.Sorted (· < ·) (listCommits pickWitnessRepo.commits 0 1) ∧
     ((applyPick pickWitnessRepo "t" "b").2.1).commits.length =
       pickWitnessRepo.commits.length + (listCommits pickWitnessRepo.commits 0 1).length ∧
     (listCommits pickWitnessRepo.commits 0 1 = [] →
       (applyPick pickWitnessRepo "t" "b").2.1 = pickWitnessRepo)) :=
  ⟨by decide, by decide, by decide, by decide, by decide,
    applyPick_applies_ancestry_range pickWitnessRepo "t" "b" 1 0 0
      (by decide) (by decide) (by decide) (by decide) (by decide)⟩

theorem readTopics_none (cands : List String) (files : List (String × String))
    (h : ∀ p ∈ cands, List.lookup p files = none) :
    readTopics cands files = none := by
  induction cands with
  | nil => rfl
  | cons p rest ih =>
    rw [readTopics, h p (List.mem_cons_self p rest)]
    exact ih (fun q hq => h q (List.mem_cons_of_mem p hq))

/-- C10: when no topics file exists at any candidate path, the run (on a
clean working tree) terminates successfully with the environment — branches,
commits, remote, files — completely unchanged: the integration branch is
neither created nor reset, nothing is resolved, committed or pushed. -/
theorem runEngine_no_topics_file (cfg : Cfg) (e : Env)
    (hclean : e.repo.clean = true)
    (hnone : ∀ p ∈ cfg.topicsCandidates, List.lookup p e.files = none) :
    runEngine cfg e = (.ok (), e) := by
  rw [runEngine, readTopics_none cfg.topicsCandidates e.files hnone]
  rw [if_neg (by rw [hclean]; simp)]

/-- C10 (witness): a concrete clean environment with no topics file. -/
theorem runEngine_no_topics_file_witness :
    (Env.mk ⟨[], [("m", 0)], [], [], some "m", 0, true⟩ []).repo.clean = true ∧
    (∀ p ∈ ["x/topics.txt", "topics.txt"],
      List.lookup p (Env.mk ⟨[], [("m", 0)], [], [], some "m", 0, true⟩ []).files = none) ∧
    runEngine ⟨"b", "tiramiss", true, .squash, ["x/topics.txt", "topics.txt"], [], []⟩
        (Env.mk ⟨[], [("m", 0)], [], [], some "m", 0, true⟩ []) =
      (.ok (), Env.mk ⟨[], [("m", 0)], [], [], some "m", 0, true⟩ []) :=
  ⟨rfl, by decide,
    runEngine_no_topics_file ⟨"b", "tiramiss", true, .squash, ["x/topics.txt", "topics.txt"], [], []⟩
      (Env.mk ⟨[], [("m", 0)], [], [], some "m", 0, true⟩ []) rfl (by decide)⟩

/-- C1 (counterexample): for both the squash and the pick strategy there is
a repository and topic list where the first run fully succeeds, the second
run also succeeds without any conflict — and the second run still creates
two additional commits (6 commits after run one, 8 after run two): the
engine is not idempotent for squash or pick. -/
theorem engine_second_run_mutates_for_squash_and_pick :
    (runEngine cexCfgSquash cexEnv).1 = .ok () ∧
    (runEngine cexCfgSquash (runEngine cexCfgSquash cexEnv).2).1 = .ok () ∧
    ((runEngine cexCfgSquash cexEnv).2).repo.commits.length = 6 ∧
    ((runEngine cexCfgSquash (runEngine cexCfgSquash cexEnv).2).2).repo.commits.length = 8 ∧
    (runEngine cexCfgSquash (runEngine cexCfgSquash cexEnv).2).2 ≠
      (runEngine cexCfgSquash cexEnv).2 ∧
    (runEngine cexCfgPick cexEnv).1 = .ok () ∧
    (runEngine cexCfgPick (runEngine cexCfgPick cexEnv).2).1 = .ok () ∧
    ((runEngine cexCfgPick cexEnv).2).repo.commits.length = 6 ∧
    ((runEngine cexCfgPick (runEngine cexCfgPick cexEnv).2).2).repo.commits.length = 8 ∧
    (runEngine cexCfgPick (runEngine cexCfgPick cexEnv).2).2 ≠
      (runEngine cexCfgPick cexEnv).2 := by
  refine ⟨by decide, by decide, by decide, by decide, ?_, by decide, by decide,
    by decide, by decide, ?_⟩ <;>
  · intro heq
    have := congrArg (fun e => e.repo.commits.length) heq
    revert this
    decide

theorem ancFuel_eq_isAnc (g : List Commit) (a : Nat) :
    ∀ b f, b ≤ f → ancFuel g a f b = isAnc g a b := by
  intro b
  induction b using Nat.strong_induction_on with
  | _ b ih =>
    intro f hbf
    cases f with
    | zero =>
      have hb0 : b = 0 := Nat.le_zero.mp hbf
      subst hb0
      rfl
    | succ f1 =>
      cases b with
      | zero =>
        simp only [isAnc, ancFuel]
        have hany : ((parentsOf g 0).any
            (fun p => decide (p < 0) && ancFuel g a f1 p)) = false := by
          rw [List.any_eq_false]
          intro p _
          simp
        rw [hany, Bool.or_false]
      | succ b1 =>
        simp only [isAnc, ancFuel]
        have hfun : (fun p => decide (p < b1 + 1) && ancFuel g a f1 p) =
            (fun p => decide (p < b1 + 1) && ancFuel g a b1 p) := by
          funext p
          by_cases hp : p < b1 + 1
          · rw [ih p hp f1 (by omega), ih p hp b1 (by omega)]
          · simp [hp]
        rw [hfun]

theorem isAnc_unfold (g : List Commit) (a b : Nat) :
    isAnc g a b =
      (a == b || (parentsOf g b).any (fun p => decide (p < b) && isAnc g a p)) := by
  cases b with
  | zero =>
    show ancFuel g a 0 0 = _
    have hany : ((parentsOf g 0).any
        (fun p => decide (p < 0) && isAnc g a p)) = false := by
      rw [List.any_eq_false]
      intro p _
      simp
    rw [hany, ancFuel, Bool.or_false]
  | succ b1 =>
    show ancFuel g a (b1 + 1) (b1 + 1) = _
    rw [ancFuel]
    have hfun : (fun p => decide (p < b1 + 1) && ancFuel g a b1 p) =
        (fun p => decide (p < b1 + 1) && isAnc g a p) := by
      funext p
      by_cases hp : p < b1 + 1
      · rw [ancFuel_eq_isAnc g a p b1 (by omega)]
      · simp [hp]
    rw [hfun]

theorem isAnc_le (g : List Commit) (a : Nat) :
    ∀ b, isAnc g a b = true → a ≤ b := by
  intro b
  induction b using Nat.strong_induction_on with
  | _ b ih =>
    intro h
    rw [isAnc_unfold] at h
    rcases Bool.or_eq_true_iff.mp h with h1 | h1
    · have hab : a = b := by simpa using h1
      omega
    · rcases List.any_eq_true.mp h1 with ⟨p, -, hp⟩
      simp only [Bool.and_eq_true, decide_eq_true_eq] at hp
      obtain ⟨hplt', hanc⟩ := hp
      exact Nat.le_trans (ih p hplt' hanc) (Nat.le_of_lt hplt')

theorem isAnc_refl (g : List Commit) (a : Nat) : isAnc g a a = true := by
  rw [isAnc_unfold]
  simp

theorem parentsOf_of_ge (g : List Commit) (b : Nat) (h : g.length ≤ b) :
    parentsOf g b = [] := by
  rw [parentsOf, List.getElem?_eq_none h]

theorem isAnc_of_ge (g : List Commit) (a b : Nat) (h : g.length ≤ b) :
    isAnc g a b = (a == b) := by
  rw [isAnc_unfold, parentsOf_of_ge g b h]
  simp

theorem parentsOf_append (g g2 : List Commit) (b : Nat) (h : b < g.length) :
    parentsOf (g ++ g2) b = parentsOf g b := by
  rw [parentsOf, parentsOf, List.getElem?_append_left h]

theorem isAnc_append (g g2 : List Commit) (a : Nat) :
    ∀ b, isAnc g a b = true → isAnc (g ++ g2) a b = true := by
  intro b
  induction b using Nat.strong_induction_on with
  | _ b ih =>
    intro h
    rw [isAnc_unfold] at h
    rw [isAnc_unfold]
    rcases Bool.or_eq_true_iff.mp h with h1 | h1
    · rw [h1]
      simp
    · rcases List.any_eq_true.mp h1 with ⟨p, hpmem, hp⟩
      simp only [Bool.and_eq_true, decide_eq_true_eq] at hp
      obtain ⟨hplt', hanc⟩ := hp
      by_cases hblen : b < g.length
      · refine Bool.or_eq_true_iff.mpr (Or.inr ?_)
        refine List.any_eq_true.mpr ⟨p, ?_, ?_⟩
        · rw [parentsOf_append g g2 b hblen]
          exact hpmem
        · rw [Bool.and_eq_true]
          exact ⟨decide_eq_true hplt', ih p hplt' hanc⟩
      · rw [parentsOf_of_ge g b (by omega)] at hpmem
        simp at hpmem

theorem isAnc_to_new_commit (g : List Commit) (c : Commit) (a x : Nat)
    (hx : x ∈ c.parents) (hxlen : x < g.length) (hax : isAnc g a x = true) :
    isAnc (g ++ [c]) a g.length = true := by
  rw [isAnc_unfold]
  refine Bool.or_eq_true_iff.mpr (Or.inr ?_)
  refine List.any_eq_true.mpr ⟨x, ?_, ?_⟩
  · have : parentsOf (g ++ [c]) g.length = c.parents := by
      rw [parentsOf]
      have : (g ++ [c])[g.length]? = some c := by
        rw [List.getElem?_append_right (Nat.le_refl _)]
        simp
      rw [this]
    rw [this]
    exact hx
  · rw [Bool.and_eq_true]
    exact ⟨decide_eq_true hxlen, isAnc_append g [c] a x hax⟩

theorem lookup_setA_self (l : List (String × Nat)) (k : String) (v : Nat) :
    List.lookup k (setA l k v) = some v := by
  induction l with
  | nil => simp [setA, List.lookup]
  | cons kv rest ih =>
    rcases kv with ⟨k', v'⟩
    rw [setA]
    by_cases hk : k' = k
    · rw [if_pos hk]
      simp [List.lookup]
    · rw [if_neg hk]
      rw [List.lookup]
      have : (k == k') = false := by
        simp [Ne.symm hk]
      rw [this]
      exact ih

theorem lookup_setA_ne (l : List (String × Nat)) (k k' : String) (v : Nat)
    (h : k' ≠ k) : List.lookup k' (setA l k v) = List.lookup k' l := by
  induction l with
  | nil =>
    rw [setA]
    simp only [List.lookup]
    have hb : (k' == k) = false := by simp [h]
    rw [hb]
  | cons kv rest ih =>
    rcases kv with ⟨k1, v1⟩
    rw [setA]
    by_cases hk : k1 = k
    · rw [if_pos hk]
      simp only [List.lookup]
      have h1 : (k' == k) = false := by simp [h]
      have h2 : (k' == k1) = false := by simp [hk, h]
      rw [h1, h2]
    · rw [if_neg hk]
      simp only [List.lookup]
      by_cases hkk : k' = k1
      · have hb : (k' == k1) = true := by simp [hkk]
        rw [hb]
      · have hb : (k' == k1) = false := by simp [hkk]
        rw [hb]
        exact ih

theorem setA_setA (l : List (String × Nat)) (k : String) (v w : Nat) :
    setA (setA l k v) k w = setA l k w := by
  induction l with
  | nil => simp [setA]
  | cons kv rest ih =>
    rcases kv with ⟨k1, v1⟩
    rw [setA]
    by_cases hk : k1 = k
    · rw [if_pos hk, setA, if_pos rfl, setA, if_pos hk]
    · rw [if_neg hk, setA, if_neg hk, setA, if_neg hk, ih]

theorem setA_id (l : List (String × Nat)) (k : String) (v : Nat)
    (h : List.lookup k l = some v) : setA l k v = l := by
  induction l with
  | nil => simp [List.lookup] at h
  | cons kv rest ih =>
    rcases kv with ⟨k1, v1⟩
    rw [setA]
    by_cases hk : k1 = k
    · rw [if_pos hk]
      subst hk
      rw [List.lookup] at h
      simp only [beq_self_eq_true] at h
      simp at h
      rw [h]
    · rw [if_neg hk]
      rw [List.lookup] at h
      have : (k == k1) = false := by simp [Ne.symm hk]
      rw [this] at h
      rw [ih h]

theorem mergeBase_bounds (g : List Commit) (x y c : Nat)
    (h : mergeBase g x y = some c) :
    c < g.length ∧ x < g.length ∧ y < g.length ∧
    isAnc g c x = true ∧ isAnc g c y = true := by
  rw [mergeBase] at h
  have hmem := List.max?_mem (@max_choice Nat _) h
  rcases List.mem_filter.1 hmem with ⟨hrange, hcond⟩
  have hc : c < g.length := List.mem_range.1 hrange
  simp only [Bool.and_eq_true] at hcond
  obtain ⟨hcx, hcy⟩ := hcond
  refine ⟨hc, ?_, ?_, hcx, hcy⟩
  · by_contra hxlen
    have := isAnc_of_ge g c x (by omega)
    rw [this] at hcx
    have : c = x := by simpa using hcx
    omega
  · by_contra hylen
    have := isAnc_of_ge g c y (by omega)
    rw [this] at hcy
    have : c = y := by simpa using hcy
    omega

theorem resolveName_of_inv {b0 rt0 rm0 : List (String × Nat)} {ib : String}
    {s : Repo} (hinv : MergeRunInv b0 rt0 rm0 ib s) (n : String) :
    resolveName s n =
      if n = ib then some s.headId
      else (List.lookup n b0).or (List.lookup n rt0) := by
  rw [resolveName, hinv.branches_eq, hinv.rt_eq]
  by_cases hn : n = ib
  · rw [if_pos hn, hn, lookup_setA_self]
    rfl
  · rw [if_neg hn, lookup_setA_ne b0 ib n s.headId hn]

theorem goodName_mono {b0 rt0 : List (String × Nat)} {ib : String}
    {g g' : List Commit} {h h' : Nat} {n : String}
    (hanc : ∀ a, isAnc g a h = true → isAnc g' a h' = true)
    (hg : GoodName b0 rt0 ib g h n) : GoodName b0 rt0 ib g' h' n := by
  rcases hg with hib | ⟨t, hres, ht⟩
  · exact Or.inl hib
  · exact Or.inr ⟨t, hres, hanc t ht⟩

theorem settledTopic_mono {b0 rt0 : List (String × Nat)} {ib : String}
    {g g' : List Commit} {h h' : Nat} {raw : String}
    (hanc : ∀ a, isAnc g a h = true → isAnc g' a h' = true)
    (hs : SettledTopic b0 rt0 ib g h raw) :
    SettledTopic b0 rt0 ib g' h' raw := by
  rcases hs with h1 | ⟨hd, h1⟩ | ⟨hd1, hd2, h1⟩
  · exact Or.inl (goodName_mono hanc h1)
  · exact Or.inr (Or.inl ⟨hd, goodName_mono hanc h1⟩)
  · exact Or.inr (Or.inr ⟨hd1, hd2, goodName_mono hanc h1⟩)

theorem addCommit_commits (s : Repo) (ps tree : List Nat) (rec : CommitRecord) :
    (addCommit s ps tree rec).commits = s.commits ++ [⟨ps, tree, rec⟩] := rfl

theorem addCommit_headId (s : Repo) (ps tree : List Nat) (rec : CommitRecord) :
    (addCommit s ps tree rec).headId = s.commits.length := rfl

theorem addCommit_rt (s : Repo) (ps tree : List Nat) (rec : CommitRecord) :
    (addCommit s ps tree rec).remoteTracking = s.remoteTracking := rfl

theorem addCommit_remote (s : Repo) (ps tree : List Nat) (rec : CommitRecord) :
    (addCommit s ps tree rec).remote = s.remote := rfl

theorem addCommit_headBranch (s : Repo) (ps tree : List Nat) (rec : CommitRecord) :
    (addCommit s ps tree rec).headBranch = s.headBranch := rfl

theorem addCommit_clean (s : Repo) (ps tree : List Nat) (rec : CommitRecord) :
    (addCommit s ps tree rec).clean = s.clean := rfl

theorem addCommit_branches (s : Repo) (ps tree : List Nat) (rec : CommitRecord)
    (ib : String) (h : s.headBranch = some ib) :
    (addCommit s ps tree rec).branches = setA s.branches ib s.commits.length := by
  rw [addCommit]
  dsimp only
  rw [h]

theorem applyMerge_merge_ok {b0 rt0 rm0 : List (String × Nat)} {ib : String}
    {s s' : Repo} {name : String} {r : Outcome}
    (hinv : MergeRunInv b0 rt0 rm0 ib s)
    (hstep : applyMerge s name = (.ok r, s')) :
    MergeRunInv b0 rt0 rm0 ib s' ∧
    (∀ a, isAnc s.commits a s.headId = true → isAnc s'.commits a s'.headId = true) ∧
    GoodName b0 rt0 ib s'.commits s'.headId name := by
  rw [applyMerge] at hstep
  rcases hres : resolveName s name with _ | t <;> rw [hres] at hstep
  · simp at hstep
  · dsimp only at hstep
    have hresIf := resolveName_of_inv hinv name
    rw [hres] at hresIf
    by_cases hanc : isAnc s.commits t s.headId = true
    · rw [if_pos hanc] at hstep
      simp only [Prod.mk.injEq] at hstep
      obtain ⟨-, rfl⟩ := hstep
      refine ⟨hinv, fun a ha => ha, ?_⟩
      by_cases hib : name = ib
      · exact Or.inl hib
      · rw [if_neg hib] at hresIf
        exact Or.inr ⟨t, hresIf.symm, hanc⟩
    · rw [if_neg hanc] at hstep
      rcases hmb : mergeBase s.commits s.headId t with _ | b <;> rw [hmb] at hstep
      · simp at hstep
      · dsimp only at hstep
        rcases h3 : threeWay (treeOf s.commits b) (treeOf s.commits s.headId)
            (treeOf s.commits t) with _ | m <;> rw [h3] at hstep
        · simp at hstep
        · dsimp only at hstep
          simp only [Prod.mk.injEq] at hstep
          obtain ⟨-, rfl⟩ := hstep
          obtain ⟨-, hhl, htl, -, -⟩ := mergeBase_bounds _ _ _ _ hmb
          have hancT : ∀ a, isAnc s.commits a s.headId = true →
              isAnc (addCommit s [s.headId, t] m ⟨[], [], []⟩).commits a
                (addCommit s [s.headId, t] m ⟨[], [], []⟩).headId = true := by
            intro a ha
            rw [addCommit_commits, addCommit_headId]
            exact isAnc_to_new_commit s.commits ⟨[s.headId, t], m, ⟨[], [], []⟩⟩ a
              s.headId (by simp) hhl ha
          refine ⟨?_, hancT, ?_⟩
          · refine ⟨?_, ?_, ?_, ?_, ?_⟩
            · rw [addCommit_branches s _ _ _ ib hinv.headBranch_eq,
                hinv.branches_eq, setA_setA, addCommit_headId]
            · rw [addCommit_rt]; exact hinv.rt_eq
            · rw [addCommit_remote]; exact hinv.remote_eq
            · rw [addCommit_headBranch]; exact hinv.headBranch_eq
            · rw [addCommit_clean]; exact hinv.clean_eq
          · by_cases hib : name = ib
            · exact Or.inl hib
            · rw [if_neg hib] at hresIf
              refine Or.inr ⟨t, hresIf.symm, ?_⟩
              rw [addCommit_commits, addCommit_headId]
              exact isAnc_to_new_commit s.commits ⟨[s.headId, t], m, ⟨[], [], []⟩⟩ t
                t (by simp) htl (isAnc_refl _ _)

theorem deadName_of_resolve_none {b0 rt0 rm0 : List (String × Nat)} {ib : String}
    {s : Repo} (hinv : MergeRunInv b0 rt0 rm0 ib s) (n : String)
    (h : (resolveName s n).isSome = false) : DeadName b0 rt0 ib n := by
  rw [resolveName_of_inv hinv n] at h
  by_cases hib : n = ib
  · rw [if_pos hib] at h
    simp at h
  · rw [if_neg hib] at h
    exact ⟨hib, Option.not_isSome_iff_eq_none.mp (by simp [h])⟩

theorem applyTopicStep_merge_ok {cfg : Cfg} (hmode : cfg.mode = Mode.merge)
    {b0 rt0 rm0 : List (String × Nat)} {s s' : Repo} {raw : String} {r : Outcome}
    (hinv : MergeRunInv b0 rt0 rm0 cfg.integrateBranch s)
    (hstep : applyTopicStep cfg s raw = (.ok r, s')) :
    MergeRunInv b0 rt0 rm0 cfg.integrateBranch s' ∧
    (∀ a, isAnc s.commits a s.headId = true → isAnc s'.commits a s'.headId = true) ∧
    SettledTopic b0 rt0 cfg.integrateBranch s'.commits s'.headId raw := by
  rw [applyTopicStep] at hstep
  rcases hr : resolveTopicRef s raw with name | e <;> rw [hr] at hstep
  · dsimp only at hstep
    rw [hmode] at hstep
    dsimp only at hstep
    obtain ⟨hinv', hanc', hgood⟩ := applyMerge_merge_ok hinv hstep
    refine ⟨hinv', hanc', ?_⟩
    rw [resolveTopicRef] at hr
    by_cases hc1 : (resolveName s raw).isSome
    · rw [if_pos hc1] at hr
      obtain rfl : raw = name := by
        simpa using hr
      exact Or.inl hgood
    · rw [if_neg hc1] at hr
      have hd1 := deadName_of_resolve_none hinv raw (by simpa using hc1)
      by_cases hc2 : (resolveName s ("origin/" ++ raw)).isSome
      · rw [if_pos hc2] at hr
        obtain rfl : "origin/" ++ raw = name := by
          simpa using hr
        exact Or.inr (Or.inl ⟨hd1, hgood⟩)
      · rw [if_neg hc2] at hr
        have hd2 := deadName_of_resolve_none hinv ("origin/" ++ raw) (by simpa using hc2)
        by_cases hc3 : (resolveName s ("upstream/" ++ raw)).isSome
        · rw [if_pos hc3] at hr
          obtain rfl : "upstream/" ++ raw = name := by
            simpa using hr
          exact Or.inr (Or.inr ⟨hd1, hd2, hgood⟩)
        · rw [if_neg hc3] at hr
          simp at hr
  · simp at hstep

theorem applyTopics_merge_anc {cfg : Cfg} (hmode : cfg.mode = Mode.merge)
    {b0 rt0 rm0 : List (String × Nat)} :
    ∀ (ts : List String) (s sF : Repo),
      MergeRunInv b0 rt0 rm0 cfg.integrateBranch s →
      applyTopics cfg ts s = (.ok (), sF) →
      ∀ a, isAnc s.commits a s.headId = true → isAnc sF.commits a sF.headId = true := by
  intro ts
  induction ts with
  | nil =>
    intro s sF hinv h
    rw [applyTopics] at h
    simp only [Prod.mk.injEq] at h
    obtain ⟨-, rfl⟩ := h
    exact fun a ha => ha
  | cons raw rest ih =>
    intro s sF hinv h
    rw [applyTopics] at h
    rcases hst : applyTopicStep cfg s raw with ⟨r1, s1⟩
    rw [hst] at h
    rcases r1 with r1 | e1
    · dsimp only at h
      obtain ⟨hinv1, hanc1, -⟩ := applyTopicStep_merge_ok hmode hinv hst
      intro a ha
      exact ih s1 sF hinv1 h a (hanc1 a ha)
    · simp at h

theorem applyTopics_merge_ok {cfg : Cfg} (hmode : cfg.mode = Mode.merge)
    {b0 rt0 rm0 : List (String × Nat)} :
    ∀ (ts : List String) (s sF : Repo),
      MergeRunInv b0 rt0 rm0 cfg.integrateBranch s →
      applyTopics cfg ts s = (.ok (), sF) →
      MergeRunInv b0 rt0 rm0 cfg.integrateBranch sF ∧
      (∀ raw ∈ ts, SettledTopic b0 rt0 cfg.integrateBranch sF.commits sF.headId raw) := by
  intro ts
  induction ts with
  | nil =>
    intro s sF hinv h
    rw [applyTopics] at h
    simp only [Prod.mk.injEq] at h
    obtain ⟨-, rfl⟩ := h
    exact ⟨hinv, by simp⟩
  | cons raw rest ih =>
    intro s sF hinv h
    rw [applyTopics] at h
    rcases hst : applyTopicStep cfg s raw with ⟨r1, s1⟩
    rw [hst] at h
    rcases r1 with r1 | e1
    · dsimp only at h
      obtain ⟨hinv1, hanc1, hsettled1⟩ := applyTopicStep_merge_ok hmode hinv hst
      obtain ⟨hinvF, hsettledF⟩ := ih s1 sF hinv1 h
      refine ⟨hinvF, ?_⟩
      intro q hq
      rcases List.mem_cons.1 hq with rfl | hq'
      · exact settledTopic_mono (applyTopics_merge_anc hmode rest s1 sF hinv1 h) hsettled1
      · exact hsettledF q hq'
    · simp at h

theorem resolveName_run2 {b0 rt0 : List (String × Nat)} {ib : String} {u : Repo}
    (hbr : u.branches = setA b0 ib u.headId)
    (hrtc : u.remoteTracking = rt0 ∨
      u.remoteTracking = setA rt0 ("origin/" ++ ib) u.headId)
    (n : String) :
    (n = ib ∧ resolveName u n = some u.headId) ∨
    (n ≠ ib ∧ (resolveName u n = some u.headId ∨
      resolveName u n = (List.lookup n b0).or (List.lookup n rt0))) := by
  rw [resolveName, hbr]
  by_cases hib : n = ib
  · left
    refine ⟨hib, ?_⟩
    rw [hib, lookup_setA_self]
    rfl
  · right
    refine ⟨hib, ?_⟩
    rw [lookup_setA_ne b0 ib n u.headId hib]
    rcases hrtc with hrt | hrt <;> rw [hrt]
    · right; rfl
    · by_cases hoib : n = "origin/" ++ ib
      · rw [hoib, lookup_setA_self]
        rcases hb : List.lookup ("origin/" ++ ib) b0 with _ | v
        · left; rfl
        · right
          rfl
      · rw [lookup_setA_ne rt0 ("origin/" ++ ib) n u.headId hoib]
        right; rfl

theorem resolve_run2_good {b0 rt0 : List (String × Nat)} {ib : String} {u : Repo}
    (hbr : u.branches = setA b0 ib u.headId)
    (hrtc : u.remoteTracking = rt0 ∨
      u.remoteTracking = setA rt0 ("origin/" ++ ib) u.headId)
    (n : String) (hg : GoodName b0 rt0 ib u.commits u.headId n) :
    ∃ v, resolveName u n = some v ∧ isAnc u.commits v u.headId = true := by
  rcases resolveName_run2 hbr hrtc n with ⟨-, h⟩ | ⟨hnib, h | h⟩
  · exact ⟨u.headId, h, isAnc_refl _ _⟩
  · exact ⟨u.headId, h, isAnc_refl _ _⟩
  · rcases hg with hib | ⟨t, hres, ht⟩
    · exact absurd hib hnib
    · exact ⟨t, by rw [h, hres], ht⟩

theorem resolve_run2_dead {b0 rt0 : List (String × Nat)} {ib : String} {u : Repo}
    (hbr : u.branches = setA b0 ib u.headId)
    (hrtc : u.remoteTracking = rt0 ∨
      u.remoteTracking = setA rt0 ("origin/" ++ ib) u.headId)
    (n : String) (hd : DeadName b0 rt0 ib n) :
    resolveName u n = none ∨ resolveName u n = some u.headId := by
  rcases resolveName_run2 hbr hrtc n with ⟨hib, h⟩ | ⟨-, h | h⟩
  · exact absurd hib hd.1
  · exact Or.inr h
  · rw [h, hd.2]
    exact Or.inl rfl

theorem applyMerge_skips {u : Repo} {c : String} {v : Nat}
    (hres : resolveName u c = some v) (hanc : isAnc u.commits v u.headId = true) :
    applyMerge u c = (.ok .skipped, u) := by
  rw [applyMerge, hres]
  dsimp only
  rw [if_pos hanc]

theorem applyTopicStep_run2_skip {cfg : Cfg} (hmode : cfg.mode = Mode.merge)
    {b0 rt0 : List (String × Nat)} {u : Repo} {raw : String}
    (hbr : u.branches = setA b0 cfg.integrateBranch u.headId)
    (hrtc : u.remoteTracking = rt0 ∨
      u.remoteTracking = setA rt0 ("origin/" ++ cfg.integrateBranch) u.headId)
    (hs : SettledTopic b0 rt0 cfg.integrateBranch u.commits u.headId raw) :
    applyTopicStep cfg u raw = (.ok .skipped, u) := by
  rw [applyTopicStep, resolveTopicRef]
  rcases hs with hg | ⟨hd1, hg⟩ | ⟨hd1, hd2, hg⟩
  · obtain ⟨v, hres, hanc⟩ := resolve_run2_good hbr hrtc raw hg
    rw [if_pos (by rw [hres]; rfl)]
    dsimp only
    rw [hmode]
    dsimp only
    exact applyMerge_skips hres hanc
  · rcases resolve_run2_dead hbr hrtc raw hd1 with hnone | hhead
    · rw [if_neg (by rw [hnone]; simp)]
      obtain ⟨v, hres, hanc⟩ := resolve_run2_good hbr hrtc _ hg
      rw [if_pos (by rw [hres]; rfl)]
      dsimp only
      rw [hmode]
      dsimp only
      exact applyMerge_skips hres hanc
    · rw [if_pos (by rw [hhead]; rfl)]
      dsimp only
      rw [hmode]
      dsimp only
      exact applyMerge_skips hhead (isAnc_refl _ _)
  · rcases resolve_run2_dead hbr hrtc raw hd1 with hnone1 | hhead1
    · rw [if_neg (by rw [hnone1]; simp)]
      rcases resolve_run2_dead hbr hrtc _ hd2 with hnone2 | hhead2
      · rw [if_neg (by rw [hnone2]; simp)]
        obtain ⟨v, hres, hanc⟩ := resolve_run2_good hbr hrtc _ hg
        rw [if_pos (by rw [hres]; rfl)]
        dsimp only
        rw [hmode]
        dsimp only
        exact applyMerge_skips hres hanc
      · rw [if_pos (by rw [hhead2]; rfl)]
        dsimp only
        rw [hmode]
        dsimp only
        exact applyMerge_skips hhead2 (isAnc_refl _ _)
    · rw [if_pos (by rw [hhead1]; rfl)]
      dsimp only
      rw [hmode]
      dsimp only
      exact applyMerge_skips hhead1 (isAnc_refl _ _)

theorem applyTopics_all_skip (cfg : Cfg) (ts : List String) (u : Repo)
    (h : ∀ raw ∈ ts, applyTopicStep cfg u raw = (.ok .skipped, u)) :
    applyTopics cfg ts u = (.ok (), u) := by
  induction ts with
  | nil => rw [applyTopics]
  | cons raw rest ih =>
    rw [applyTopics, h raw (List.mem_cons_self raw rest)]
    exact ih (fun q hq => h q (List.mem_cons_of_mem raw hq))

theorem resetIntegrate_self (s : Repo) (ib : String)
    (hb : setA s.branches ib s.headId = s.branches)
    (hh : s.headBranch = some ib) :
    resetIntegrate s ib s.headId = s := by
  rw [resetIntegrate, hb, ← hh]

theorem pushPhase_commits (cfg : Cfg) (s : Repo) :
    (pushPhase cfg s).commits = s.commits := by
  by_cases hp : cfg.push = true
  · rw [pushPhase, if_pos hp]
  · rw [pushPhase, if_neg hp]

theorem pushPhase_headId (cfg : Cfg) (s : Repo) :
    (pushPhase cfg s).headId = s.headId := by
  by_cases hp : cfg.push = true
  · rw [pushPhase, if_pos hp]
  · rw [pushPhase, if_neg hp]

theorem pushPhase_headBranch (cfg : Cfg) (s : Repo) :
    (pushPhase cfg s).headBranch = s.headBranch := by
  by_cases hp : cfg.push = true
  · rw [pushPhase, if_pos hp]
  · rw [pushPhase, if_neg hp]

theorem pushPhase_branches (cfg : Cfg) (s : Repo) :
    (pushPhase cfg s).branches = s.branches := by
  by_cases hp : cfg.push = true
  · rw [pushPhase, if_pos hp]
  · rw [pushPhase, if_neg hp]

theorem pushPhase_clean (cfg : Cfg) (s : Repo) :
    (pushPhase cfg s).clean = s.clean := by
  by_cases hp : cfg.push = true
  · rw [pushPhase, if_pos hp]
  · rw [pushPhase, if_neg hp]

theorem pushPhase_rt_push (cfg : Cfg) (s : Repo) (hp : cfg.push = true) :
    (pushPhase cfg s).remoteTracking =
      setA s.remoteTracking ("origin/" ++ cfg.integrateBranch) s.headId := by
  rw [pushPhase, if_pos hp]

theorem pushPhase_remote_push (cfg : Cfg) (s : Repo) (hp : cfg.push = true) :
    (pushPhase cfg s).remote = setA s.remote cfg.integrateBranch s.headId := by
  rw [pushPhase, if_pos hp]

theorem pushPhase_nopush (cfg : Cfg) (s : Repo) (hp : cfg.push = false) :
    pushPhase cfg s = s := by
  rw [pushPhase, if_neg (by rw [hp]; simp)]

theorem pushPhase_self_push (cfg : Cfg) (s : Repo) (hp : cfg.push = true)
    (hrm : setA s.remote cfg.integrateBranch s.headId = s.remote)
    (hrt : setA s.remoteTracking ("origin/" ++ cfg.integrateBranch) s.headId =
      s.remoteTracking) :
    pushPhase cfg s = s := by
  rw [pushPhase, if_pos hp, hrm, hrt]

/-- C1 (amended): the merge strategy is idempotent — a second engine run
immediately after a fully successful merge-mode run, with the topic list,
strategy and repository state unchanged, succeeds and performs zero
additional mutations: the resulting environment is byte-for-byte the one the
first run produced.  (For squash and pick this fails; see the
counterexample.) -/
theorem engine_merge_idempotent (cfg : Cfg) (e e1 : Env)
    (hmode : cfg.mode = Mode.merge)
    (hrun1 : runEngine cfg e = (.ok (), e1)) :
    runEngine cfg e1 = (.ok (), e1) := by
  rw [runEngine] at hrun1
  by_cases hclean : e.repo.clean = false
  · rw [if_pos hclean] at hrun1
    simp at hrun1
  · rw [if_neg hclean] at hrun1
    have hcleanT : e.repo.clean = true := by
      revert hclean
      cases e.repo.clean <;> simp
    rcases hrt : readTopics cfg.topicsCandidates e.files with _ | ⟨p, topics⟩ <;>
      rw [hrt] at hrun1
    · simp only [Prod.mk.injEq] at hrun1
      obtain ⟨-, rfl⟩ := hrun1
      rw [runEngine, hrt, if_neg hclean]
    · dsimp only at hrun1
      rcases hap : applyTopics cfg topics
          (resetIntegrate e.repo cfg.integrateBranch e.repo.headId) with ⟨rA, s2⟩
      rw [hap] at hrun1
      rcases rA with u | err2
      · cases u
        dsimp only at hrun1
        simp only [Prod.mk.injEq] at hrun1
        obtain ⟨-, rfl⟩ := hrun1
        have hinv1 : MergeRunInv e.repo.branches e.repo.remoteTracking e.repo.remote
            cfg.integrateBranch
            (resetIntegrate e.repo cfg.integrateBranch e.repo.headId) :=
          ⟨rfl, rfl, rfl, rfl, hcleanT⟩
        obtain ⟨hinv2, hsettled⟩ := applyTopics_merge_ok hmode topics _ s2 hinv1 hap
        rw [runEngine]
        have hclean1 : (pushPhase cfg s2).clean = true := by
          rw [pushPhase_clean]
          exact hinv2.clean_eq
        rw [if_neg (by show ¬ (pushPhase cfg s2).clean = false; rw [hclean1]; simp)]
        dsimp only
        rw [hrt]
        dsimp only
        have hreset : resetIntegrate (pushPhase cfg s2) cfg.integrateBranch
            (pushPhase cfg s2).headId = pushPhase cfg s2 := by
          apply resetIntegrate_self
          · rw [pushPhase_branches, pushPhase_headId, hinv2.branches_eq, setA_setA]
          · rw [pushPhase_headBranch]
            exact hinv2.headBranch_eq
        rw [hreset]
        have hskips : ∀ raw ∈ topics,
            applyTopicStep cfg (pushPhase cfg s2) raw =
              (.ok .skipped, pushPhase cfg s2) := by
          intro raw hraw
          apply applyTopicStep_run2_skip hmode
          · rw [pushPhase_branches, pushPhase_headId]
            exact hinv2.branches_eq
          · by_cases hp : cfg.push = true
            · right
              rw [pushPhase_rt_push cfg s2 hp, pushPhase_headId, hinv2.rt_eq]
            · left
              rw [pushPhase_nopush cfg s2 (by revert hp; cases cfg.push <;> simp)]
              exact hinv2.rt_eq
          · rw [pushPhase_commits, pushPhase_headId]
            exact hsettled raw hraw
        rw [applyTopics_all_skip cfg topics _ hskips]
        dsimp only
        have hpp : pushPhase cfg (pushPhase cfg s2) = pushPhase cfg s2 := by
          by_cases hp : cfg.push = true
          · apply pushPhase_self_push cfg _ hp
            · rw [pushPhase_remote_push cfg s2 hp, pushPhase_headId, setA_setA]
            · rw [pushPhase_rt_push cfg s2 hp, pushPhase_headId, setA_setA]
          · have hpf : cfg.push = false := by revert hp; cases cfg.push <;> simp
            rw [pushPhase_nopush cfg _ hpf, pushPhase_nopush cfg _ hpf]
        rw [hpp]
      · simp at hrun1

/-- C1 (witness): a concrete merge-mode run over two topics; the second run
returns the first run's environment unchanged. -/
theorem engine_merge_idempotent_witness :
    cexCfgMerge.mode = Mode.merge ∧
    runEngine cexCfgMerge cexEnv = (.ok (), (runEngine cexCfgMerge cexEnv).2) ∧
    runEngine cexCfgMerge (runEngine cexCfgMerge cexEnv).2 =
      (.ok (), (runEngine cexCfgMerge cexEnv).2) :=
  ⟨rfl, by decide,
    engine_merge_idempotent cexCfgMerge cexEnv (runEngine cexCfgMerge cexEnv).2
      rfl (by decide)⟩
